import Mathlib

/-!
Verification of the md2any theme-styling pipeline.

Strings are modelled as `List Char` (`Str`).  Each definition below is a
shallow embedding of the corresponding Python function from
`src/renderers/markdown_renderer.py`, `src/utils/markdown_utils.py` and
`src/api.py`; doc comments name the source function.
-/

namespace Md2any

abbrev Str := List Char

/-- Boolean prefix test on character lists (Python `str.startswith`). -/
def pfx : Str → Str → Bool
  | [], _ => true
  | _ :: _, [] => false
  | a :: p, b :: s => a == b && pfx p s

/-- Boolean suffix test (Python `str.endswith`). -/
def sfx (p s : Str) : Bool := pfx p.reverse s.reverse

/-- Boolean substring test (Python `x in s`). -/
def hasSub (q : Str) : Str → Bool
  | [] => q.isEmpty
  | c :: t => pfx q (c :: t) || hasSub q t

/-- ASCII whitespace, as stripped by Python `str.strip` / matched by `\s`. -/
def isSp (c : Char) : Bool :=
  c == ' ' || c == '\t' || c == '\n' || c == '\r' || c == '\x0b' || c == '\x0c'

/-- Python `str.strip()`: drop whitespace from both ends. -/
def pyStrip (s : Str) : Str :=
  ((s.dropWhile isSp).reverse.dropWhile isSp).reverse

/-- Python `str.split(sep)` for a one-character separator: keeps empty
pieces and always returns at least one piece. -/
def pySplit (sep : Char) : Str → List Str
  | [] => [[]]
  | c :: t =>
    if c == sep then [] :: pySplit sep t
    else (c :: (pySplit sep t).headI) :: (pySplit sep t).tail

/-- Python `'; '.join(parts)`. -/
def joinDecls : List Str → Str
  | [] => []
  | [d] => d
  | d :: rest => d ++ ';' :: ' ' :: joinDecls rest

/-- The literal `!important`. -/
def impS : Str := "!important".data

/-- Loop body of `_adjust_for_wechat_style`: strip each piece, keep the
nonempty ones containing a colon, and append ` !important` to any kept
declaration that does not already contain `!important`. -/
def adjustDecls : List Str → List Str
  | [] => []
  | decl :: rest =>
    let d := pyStrip decl
    if !d.isEmpty && hasSub [':'] d then
      (if hasSub impS d then d else d ++ ' ' :: impS) :: adjustDecls rest
    else adjustDecls rest

/-- `MarkdownRenderer._adjust_for_wechat_style` (markdown_renderer.py lines
252-270): empty styles are returned unchanged, otherwise the string is split
on `;`, each declaration is adjusted, and the results are re-joined with
`'; '`. -/
def adjust_for_wechat_style (style : Str) : Str :=
  if style.isEmpty then style
  else joinDecls (adjustDecls (pySplit ';' style))

/-- One pass of Python `str.replace(p, r)`: leftmost, non-overlapping.
The first argument counts characters of a match still to be skipped. -/
def raGo (p r : Str) : Nat → Str → Str
  | _, [] => []
  | Nat.succ k, _ :: t => raGo p r k t
  | 0, c :: t =>
    if pfx p (c :: t) then r ++ raGo p r (p.length - 1) t
    else c :: raGo p r 0 t

/-- Python `s.replace(p, r)`. -/
def pyReplace (p r s : Str) : Str := raGo p r 0 s

/-- The `dark_adjustments` table of
`_apply_dark_mode_adjustments_to_style` (markdown_renderer.py lines
232-244), in source (insertion) order. -/
def darkAdjustments : List (Str × Str) :=
  [("#ffffff".data, "#1a1a1a".data),
   ("#fff".data,    "#1a1a1a".data),
   ("#333333".data, "#e8e8e8".data),
   ("#333".data,    "#e8e8e8".data),
   ("#555555".data, "#b0b0b0".data),
   ("#555".data,    "#b0b0b0".data),
   ("#000000".data, "#ffffff".data),
   ("#000".data,    "#ffffff".data),
   ("#f8f9fa".data, "#2c3e50".data),
   ("#ecf0f1".data, "#2c3e50".data),
   ("#f7f7f7".data, "#2c3e50".data)]

/-- `MarkdownRenderer._apply_dark_mode_adjustments_to_style`
(markdown_renderer.py lines 229-250): sequential literal replacement of
every light color by its dark counterpart. -/
def apply_dark_mode_adjustments_to_style (style : Str) : Str :=
  darkAdjustments.foldl (fun acc pr => pyReplace pr.1 pr.2 acc) style

/-- The light colors of the `dark_adjustments` table (its keys). -/
def lightColors : List Str := darkAdjustments.map Prod.fst

/-- Hexadecimal digit (as in a CSS hex color literal). -/
def isHexDigit (c : Char) : Bool :=
  c.isDigit || ('a' ≤ c && c ≤ 'f') || ('A' ≤ c && c ≤ 'F')

/-- `hexOK table s`: every maximal hex-color literal of `s` (a `#` followed
by the longest run of hex digits) is an entry of `table`.  This formalises
"style string whose hex color literals all come from the documented
table". -/
def hexOK (table : List Str) : Str → Bool
  | [] => true
  | c :: t =>
    (if c == '#' then ('#' :: t.takeWhile isHexDigit) ∈ table else true)
      && hexOK table t

/-- Number of positions of `s` at which `q` occurs. -/
def countOccs (q : Str) : Str → Nat
  | [] => 0
  | c :: t => (if pfx q (c :: t) then 1 else 0) + countOccs q t

/-- The declarations of an adjusted style string: split on `;`, strip, and
keep the nonempty pieces. -/
def outDecls (s : Str) : List Str :=
  ((pySplit ';' s).map pyStrip).filter (fun d => !d.isEmpty)

/-- Removal of the first occurrence of a character
(Python `line.replace('#', '', 1)`). -/
def replaceFirst (c : Char) : Str → Str
  | [] => []
  | x :: t => if x == c then t else x :: replaceFirst c t

/-- The fallback title `默认标题`. -/
def fallbackTitle : Str := "默认标题".data

/-- Scan of the lines of `extract_title_from_markdown`: the first line that
starts with `#` but not with `##` yields the title. -/
def titleScan : List Str → Str
  | [] => fallbackTitle
  | l :: rest =>
    if pfx ['#'] l && !pfx ['#', '#'] l then pyStrip (replaceFirst '#' l)
    else titleScan rest

/-- `extract_title_from_markdown` (markdown_utils.py lines 9-15). -/
def extract_title_from_markdown (s : Str) : Str :=
  titleScan (pySplit '\n' s)

/-! Image grids (`_process_image_grids`, markdown_renderer.py lines 280-302).
The regex `(<p><img[^>]*></p>\s*)+` is deterministic: `[^>]*` runs to the
first `>`, `\s*` runs to the first non-whitespace, and no backtracking can
occur because a repetition must start with `<`.  `subGo` is the `re.sub`
scan; fuel arguments only bound the recursion and are always at least the
length of the scanned string. -/

/-- Match `<p><img[^>]*></p>` at the start of `s`; on success return the
matched text and the rest. -/
def matchImgP (s : Str) : Option (Str × Str) :=
  if pfx "<p><img".data s then
    let rest := s.drop 7
    let attrs := rest.takeWhile (fun c => c != '>')
    let rest2 := rest.dropWhile (fun c => c != '>')
    if pfx "></p>".data rest2 then
      some ("<p><img".data ++ attrs ++ "></p>".data, rest2.drop 5)
    else none
  else none

/-- Match `(<p><img[^>]*></p>\s*)+` at the start of `s` (greedy). -/
def matchRunGo : Nat → Str → Option (Str × Str)
  | 0, _ => none
  | f + 1, s =>
    match matchImgP s with
    | none => none
    | some (m, rest) =>
      let sp := rest.takeWhile isSp
      let rest' := rest.dropWhile isSp
      match matchRunGo f rest' with
      | some (m2, r2) => some (m ++ sp ++ m2, r2)
      | none => some (m ++ sp, rest')

/-- `re.findall(r"<img[^>]*>", m)`: leftmost, non-overlapping. -/
def imgTagsGo : Nat → Str → List Str
  | 0, _ => []
  | f + 1, s =>
    match s with
    | [] => []
    | _ :: t =>
      if pfx "<img".data s then
        let rest := s.drop 4
        let attrs := rest.takeWhile (fun c => c != '>')
        let rest2 := rest.dropWhile (fun c => c != '>')
        match rest2 with
        | '>' :: r3 => ("<img".data ++ attrs ++ ['>']) :: imgTagsGo f r3
        | _ => imgTagsGo f t
      else imgTagsGo f t

/-- `replace_img_group` (markdown_renderer.py lines 288-300): count the
`<img>` tags in the matched group and dispatch on the count. -/
def replaceImgGroup (m : Str) : Str :=
  let n := (imgTagsGo m.length m).length
  if n == 1 then m
  else if n == 2 then
    "<section class=\"img-grid img-grid-2\">".data ++ m ++ "</section>".data
  else if n == 3 then
    "<section class=\"img-grid img-grid-3\">".data ++ m ++ "</section>".data
  else
    "<section class=\"img-grid img-grid-multi\">".data ++ m ++ "</section>".data

/-- The `re.sub` scan: at each position try the run pattern; on a match,
emit the replacement and continue after the match, otherwise copy one
character. -/
def subGo : Nat → Str → Str
  | 0, s => s
  | f + 1, s =>
    match s with
    | [] => []
    | c :: t =>
      match matchRunGo (s.length + 1) s with
      | some (m, rest) => replaceImgGroup m ++ subGo f rest
      | none => c :: subGo f t

/-- `MarkdownRenderer._process_image_grids`. -/
def process_image_grids (s : Str) : Str := subGo s.length s

/-! The selector-application loop and wrapping of
`MarkdownRenderer._apply_theme_styling` (markdown_renderer.py lines
76-152).  HTML parsing is abstracted: the parsed document (`soup`) is the
list of the `style` attributes of its elements, and CSS matching is an
oracle `select` that, like BeautifulSoup's `soup.select`, either returns
the matched elements (here: their indices) or raises (here: `Except.error`,
for an invalid selector). -/

/-- The per-selector mode/platform adjustment applied to a declaration
string before it is attached (markdown_renderer.py lines 96-107). -/
def adjustStyle (mode platform : Str) (style : Str) : Str :=
  let s1 := if mode = "dark-mode".data
    then apply_dark_mode_adjustments_to_style style else style
  if platform = "wechat".data then adjust_for_wechat_style s1
  else if platform = "xiaohongshu".data then s1
  else if platform = "zhihu".data then s1
  else s1

/-- Merge an adjusted declaration string into an element's existing
`style` attribute (markdown_renderer.py lines 113-117): ensure a trailing
semicolon, join with a space, strip. -/
def combineStyle (existing adjusted : Str) : Str :=
  let e := if !existing.isEmpty && !sfx [';'] existing
    then existing ++ [';'] else existing
  pyStrip (e ++ ' ' :: adjusted)

/-- Apply an adjusted declaration string to the elements at the matched
indices. -/
def applyIdxs (adjusted : Str) (idxs : List Nat) (soup : List Str) : List Str :=
  idxs.foldl (fun sp i => sp.set i (combineStyle (sp.getD i []) adjusted)) soup

/-- The reserved wrapper selectors. -/
def reservedSelectors : List Str := ["container".data, "innerContainer".data]

/-- The `for selector, style_properties in styles.items()` loop
(markdown_renderer.py lines 91-120): reserved selectors are skipped, a
failing `select` is caught and the selector skipped, otherwise the adjusted
style is merged into every matched element. -/
def styleLoop (select : Str → List Str → Except Str (List Nat))
    (mode platform : Str) : List (Str × Str) → List Str → List Str
  | [], soup => soup
  | (sel, props) :: rest, soup =>
    if sel ∈ reservedSelectors then styleLoop select mode platform rest soup
    else
      match select sel soup with
      | .error _ => styleLoop select mode platform rest soup
      | .ok idxs =>
        styleLoop select mode platform rest
          (applyIdxs (adjustStyle mode platform props) idxs soup)

/-- Dictionary lookup with default (Python `styles.get(key, "")`). -/
def lookupD (styles : List (Str × Str)) (key : Str) : Str :=
  match styles.lookup key with
  | some v => v
  | none => []

/-- The wrapped result of `_apply_theme_styling`: the outer
`<section class="markdown-content">` (with its optional `style`
attribute), the optional `<section class="inner-container">` style, and
the element `style` attributes of the content. -/
structure WrappedResult where
  containerAttr : Option Str
  innerAttr : Option Str
  contents : List Str
  deriving Repr, DecidableEq

/-- The container-style adjustment of markdown_renderer.py lines 126-136:
dark-mode substitution, then the WeChat adjustment (only for the `wechat`
platform). -/
def adjustContainerStyle (mode platform : Str) (style : Str) : Str :=
  let s1 := if mode = "dark-mode".data
    then apply_dark_mode_adjustments_to_style style else style
  if platform = "wechat".data then adjust_for_wechat_style s1 else s1

/-- `MarkdownRenderer._apply_theme_styling` after HTML parsing: run the
selector loop, then build the wrapper from the reserved `container` /
`innerContainer` entries (markdown_renderer.py lines 122-152).  A wrapper
`style` attribute is attached only when the adjusted style is nonempty,
and the inner container exists only when its adjusted style is
nonempty. -/
def apply_theme_styling (select : Str → List Str → Except Str (List Nat))
    (styles : List (Str × Str)) (soup : List Str)
    (mode platform : Str) : WrappedResult :=
  let contents := styleLoop select mode platform styles soup
  let cs := adjustContainerStyle mode platform (lookupD styles "container".data)
  let is := adjustContainerStyle mode platform (lookupD styles "innerContainer".data)
  { containerAttr := if cs.isEmpty then none else some cs
    innerAttr := if is.isEmpty then none else some is
    contents := contents }

/-! The `/render` handler (api.py lines 980-1057). -/

/-- A theme configuration: its style map and the ids of its modes. -/
structure ThemeCfg where
  styles : List (Str × Str)
  modes : List Str
  deriving Repr, DecidableEq

/-- Outcome of a request handler: a success payload
(`MarkdownResponse(html, theme, platform, success=True, ...)`) or an HTTP
error with status code and detail. -/
inductive HandlerResult where
  | success (html theme platform : Str)
  | httpError (code : Nat) (detail : Str)
  deriving Repr, DecidableEq

/-- The body of `render_markdown` inside its `try`: theme resolution with
fallback to the first available predefined theme, mode validation, and
rendering.  `renderFn`/`renderCustomFn` abstract `renderer.render` and
`renderer.render_with_custom_styles`; `modeMsgFn` abstracts the formatted
mode-error message. -/
def renderBody (themes : List (Str × ThemeCfg))
    (customs : List (Str × List (Str × Str)))
    (renderFn : Str → Str → Str → Str → Str)
    (renderCustomFn : Str → Str → Str → Str → List (Str × Str) → Str)
    (modeMsgFn : Str → Str → List Str → Str)
    (reqText reqTheme reqMode reqPlatform : Str) :
    Except (Nat × Str) HandlerResult :=
  let found : Option (Bool × Str × ThemeCfg) :=
    match themes.lookup reqTheme with
    | some cfg => some (false, reqTheme, cfg)
    | none =>
      match customs.lookup reqTheme with
      | some st => some (true, reqTheme, ⟨st, ["light-mode".data]⟩)
      | none => none
  let resolved : Except (Nat × Str) (Bool × Str × ThemeCfg) :=
    match found with
    | some r => .ok r
    | none =>
      match themes with
      | [] => .error (400, "No themes available".data)
      | (n, cfg) :: _ => .ok (false, n, cfg)
  match resolved with
  | .error e => .error e
  | .ok (isCustom, name, cfg) =>
    if !cfg.modes.isEmpty && !cfg.modes.contains reqMode then
      .error (400, modeMsgFn reqMode name cfg.modes)
    else
      .ok (.success
        (if isCustom then renderCustomFn reqText name reqMode reqPlatform cfg.styles
         else renderFn reqText name reqMode reqPlatform)
        name reqPlatform)

/-- `render_markdown` (api.py lines 980-1057): the whole body runs inside
`try … except Exception`, so any `HTTPException` raised in the body —
including the 400s — is caught and re-raised as
`HTTPException(500, f"Rendering error: {str(e)}")`.  `excToStr` abstracts
Python's `str(e)` on an `HTTPException`. -/
def render_markdown (themes : List (Str × ThemeCfg))
    (customs : List (Str × List (Str × Str)))
    (renderFn : Str → Str → Str → Str → Str)
    (renderCustomFn : Str → Str → Str → Str → List (Str × Str) → Str)
    (modeMsgFn : Str → Str → List Str → Str)
    (excToStr : Nat → Str → Str)
    (reqText reqTheme reqMode reqPlatform : Str) : HandlerResult :=
  match renderBody themes customs renderFn renderCustomFn modeMsgFn
      reqText reqTheme reqMode reqPlatform with
  | .ok r => r
  | .error (code, detail) =>
    .httpError 500 ("Rendering error: ".data ++ excToStr code detail)

/-! The custom-style store (api.py lines 1060-1127).  `CUSTOM_STYLES` is a
Python dict keyed by style name; modelled as an association list with
dict update semantics (replace in place, else append). -/

/-- Python dict assignment `d[k] = v`. -/
def dictSet (k : Str) (v : List (Str × Str)) :
    List (Str × List (Str × Str)) → List (Str × List (Str × Str))
  | [] => [(k, v)]
  | (k', v') :: rest =>
    if k' = k then (k, v) :: rest else (k', v') :: dictSet k v rest

/-- Python `del d[k]`. -/
def dictDel (k : Str) :
    List (Str × List (Str × Str)) → List (Str × List (Str × Str))
  | [] => []
  | (k', v') :: rest =>
    if k' = k then rest else (k', v') :: dictDel k rest

/-- Outcome of a custom-style endpoint. -/
inductive StyleResult where
  | okStyles (name : Str) (styles : List (Str × Str))
  | okMsg (name : Str)
  | notFound (name : Str)
  deriving Repr, DecidableEq

/-- `save_custom_style` (api.py lines 1060-1077): unconditionally store
under the key and report success. -/
def save_custom_style (store : List (Str × List (Str × Str)))
    (name : Str) (styles : List (Str × Str)) :
    List (Str × List (Str × Str)) × StyleResult :=
  (dictSet name styles store, .okMsg name)

/-- `get_custom_style` (api.py lines 1080-1092): 404 when missing, else
the stored style map. -/
def get_custom_style (store : List (Str × List (Str × Str)))
    (name : Str) : StyleResult :=
  match store.lookup name with
  | none => .notFound name
  | some styles => .okStyles name styles

/-- `delete_custom_style` (api.py lines 1104-1127): 404 when missing,
else remove the entry and report success. -/
def delete_custom_style (store : List (Str × List (Str × Str)))
    (name : Str) : List (Str × List (Str × Str)) × StyleResult :=
  match store.lookup name with
  | none => (store, .notFound name)
  | some _ => (dictDel name store, .okMsg name)

/-! `MarkdownRenderer.render` (markdown_renderer.py lines 28-49).  The
third-party converter is modelled as a state machine `convert`; the pure
steps `preprocess_markdown` and `_apply_theme_styling` are abstracted as
pure functions of their input. -/

/-- `MarkdownRenderer.render`: preprocess, convert (threading the
converter state), style, then `self.md.reset()`. -/
def renderer_render {Sigma : Type}
    (convert : Sigma → Str → Str × Sigma) (reset : Sigma → Sigma)
    (preprocessFn : Str → Str) (styleFn : Str → Str)
    (st : Sigma) (text : Str) : Str × Sigma :=
  let processed := preprocessFn text
  let conv := convert st processed
  (styleFn conv.1, reset conv.2)

/-! Statements of the claims under test, and sample data. -/

/-- Claim C1 as stated: for every non-empty style string, every
declaration of the WeChat-adjusted output ends with `!important`, and the
number of `!important` occurrences equals the number of declarations. -/
def wechatImportantClaim : Prop :=
  ∀ s : Str, s ≠ [] →
    (∀ d ∈ outDecls (adjust_for_wechat_style s), sfx impS d = true) ∧
    countOccs impS (adjust_for_wechat_style s)
      = (outDecls (adjust_for_wechat_style s)).length

/-- Claim C2 as stated: for every style string whose hex color literals
all come from the `dark_adjustments` table, the dark-mode output contains
none of the original light colors. -/
def darkModeClaim : Prop :=
  ∀ s : Str, hexOK lightColors s = true →
    ∀ c ∈ lightColors, hasSub c (apply_dark_mode_adjustments_to_style s) = false

/-- The light colors of the table other than `#ffffff` and `#fff` (the
two that reappear as the dark image of `#000000`/`#000`). -/
def darkSafeColors : List Str :=
  ["#333333".data, "#333".data, "#555555".data, "#555".data,
   "#000000".data, "#000".data, "#f8f9fa".data, "#ecf0f1".data,
   "#f7f7f7".data]

/-- One image-only paragraph of a run, as matched by one repetition of
the regex group: its `<img>` attribute text (the `[^>]*` part) and the
whitespace that follows the paragraph (the `\s*` part). -/
def renderPar (p : Str × Str) : Str :=
  "<p><img".data ++ p.1 ++ "></p>".data ++ p.2

/-- A run of consecutive image-only paragraphs. -/
def renderRun (r : List (Str × Str)) : Str := (r.map renderPar).flatten

/-- The tail of a document: an alternation of runs and the text segments
that follow them. -/
def renderParts (parts : List (List (Str × Str) × Str)) : Str :=
  (parts.map (fun pt => renderRun pt.1 ++ pt.2)).flatten

/-- A paragraph is well-formed when its attribute text contains no `>`
(as `[^>]*` requires) and its separator is whitespace (as `\s*`
requires). -/
def GoodPar (p : Str × Str) : Prop :=
  ('>' : Char) ∉ p.1 ∧ ∀ c ∈ p.2, isSp c = true

/-- Whether a string does not start with a whitespace character. -/
def noSpHead : Str → Bool
  | [] => true
  | c :: _ => !isSp c

/-- Well-formedness of an alternation of runs and text segments, which
makes each run maximal: every run is nonempty and its paragraphs are
well-formed; every text segment contains no image-paragraph opener
`<p><img` and does not start with whitespace (the preceding run's
trailing `\s*` would swallow it); and a text segment standing between two
runs is nonempty (otherwise the two runs would be a single run). -/
def WFParts : List (List (Str × Str) × Str) → Prop
  | [] => True
  | (r, t) :: rest =>
    r ≠ [] ∧ (∀ p ∈ r, GoodPar p) ∧ hasSub "<p><img".data t = false ∧
      noSpHead t = true ∧ (rest = [] ∨ t ≠ []) ∧ WFParts rest

instance instDecidableGoodPar (p : Str × Str) : Decidable (GoodPar p) :=
  decidable_of_iff (('>' : Char) ∉ p.1 ∧ ∀ c ∈ p.2, isSp c = true) Iff.rfl

instance instDecidableWFParts :
    (parts : List (List (Str × Str) × Str)) → Decidable (WFParts parts)
  | [] => Decidable.isTrue trivial
  | (r, t) :: rest =>
    have _inst : Decidable (WFParts rest) := instDecidableWFParts rest
    decidable_of_iff
      (r ≠ [] ∧ (∀ p ∈ r, GoodPar p) ∧ hasSub "<p><img".data t = false ∧
        noSpHead t = true ∧ (rest = [] ∨ t ≠ []) ∧ WFParts rest) Iff.rfl

/-- Fuel consumed by the `re.sub` scan on an alternation: one step per
run plus one step per separator character. -/
def partsFuel : List (List (Str × Str) × Str) → Nat
  | [] => 0
  | (_, t) :: rest => (t.length + partsFuel rest) + 1

/-- The grid wrapper emitted by `replace_img_group`. -/
def gridWrap (cls m : Str) : Str :=
  "<section class=\"".data ++ cls ++ "\">".data ++ m ++ "</section>".data

/-- The output the claim predicts for one maximal run: a single image is
left unwrapped, and runs of 2, 3, and 4 or more images are wrapped with
the class for their image count. -/
def expectedWrap (r : List (Str × Str)) : Str :=
  if r.length == 1 then renderRun r
  else if r.length == 2 then gridWrap "img-grid img-grid-2".data (renderRun r)
  else if r.length == 3 then gridWrap "img-grid img-grid-3".data (renderRun r)
  else gridWrap "img-grid img-grid-multi".data (renderRun r)

/-- A select oracle with every failure replaced by an empty match list:
used to state that a failing selector is skipped exactly like a selector
matching no elements. -/
def selectOrEmpty (select : Str → List Str → Except Str (List Nat)) :
    Str → List Str → Except Str (List Nat) :=
  fun sel soup =>
    match select sel soup with
    | .error _ => .ok []
    | .ok idxs => .ok idxs

/-- Claim C7 as stated: whenever the requested theme is neither predefined
nor custom, a nonempty theme table makes the handler fall back to the
first predefined theme and answer with a success response, and an empty
theme table makes it fail with HTTP 400. -/
def renderFallbackClaim : Prop :=
  ∀ (themes : List (Str × ThemeCfg))
    (customs : List (Str × List (Str × Str)))
    (renderFn : Str → Str → Str → Str → Str)
    (renderCustomFn : Str → Str → Str → Str → List (Str × Str) → Str)
    (modeMsgFn : Str → Str → List Str → Str)
    (excToStr : Nat → Str → Str)
    (text theme mode platform : Str),
    themes.lookup theme = none → customs.lookup theme = none →
    (∀ n cfg rest, themes = (n, cfg) :: rest →
      ∃ html, render_markdown themes customs renderFn renderCustomFn
        modeMsgFn excToStr text theme mode platform
        = .success html n platform) ∧
    (themes = [] →
      ∃ d, render_markdown themes customs renderFn renderCustomFn
        modeMsgFn excToStr text theme mode platform = .httpError 400 d)

/-- Sample theme table for exercising the `/render` fallback: one theme
whose only mode is `light-mode`. -/
def cexThemes : List (Str × ThemeCfg) :=
  [("d".data, ⟨[], ["light-mode".data]⟩)]

/-- Sample renderer for exercising the `/render` fallback. -/
def cexRender : Str → Str → Str → Str → Str := fun _ _ _ _ => []

/-- Sample custom-styles renderer for the `/render` fallback. -/
def cexRenderCustom : Str → Str → Str → Str → List (Str × Str) → Str :=
  fun _ _ _ _ _ => []

/-- Sample mode-error message formatter for the `/render` fallback. -/
def cexModeMsg : Str → Str → List Str → Str := fun _ _ _ => []

/-- Sample `str(e)` model for the `/render` fallback. -/
def cexExcToStr : Nat → Str → Str := fun _ d => d

/-- The association-list store has no repeated keys — the invariant every
Python dict satisfies. -/
def KeysNodup (store : List (Str × List (Str × Str))) : Prop :=
  (store.map Prod.fst).Nodup

/-! Basic facts about `pfx`, `hasSub` and `countOccs`. -/

theorem pfx_nil (s : Str) : pfx [] s = true := by
  cases s <;> rfl

theorem hasSub_nil (b : Str) : hasSub [] b = true := by
  cases b <;> simp [hasSub, pfx_nil]

theorem pfx_append_left {q a : Str} (b : Str) (h : pfx q a = true) :
    pfx q (a ++ b) = true := by
  induction q generalizing a with
  | nil => exact pfx_nil _
  | cons x q ih =>
    cases a with
    | nil => simp [pfx] at h
    | cons y a' =>
      simp only [pfx, Bool.and_eq_true] at h
      simp only [List.cons_append, pfx, Bool.and_eq_true]
      exact ⟨h.1, ih h.2⟩

theorem pfx_of_append {q a : Str} (b : Str) (h : pfx q (a ++ b) = true)
    (hl : q.length ≤ a.length) : pfx q a = true := by
  induction q generalizing a with
  | nil => exact pfx_nil _
  | cons x q ih =>
    cases a with
    | nil => simp at hl
    | cons y a' =>
      simp only [List.cons_append, pfx, Bool.and_eq_true] at h
      simp only [pfx, Bool.and_eq_true]
      exact ⟨h.1, ih h.2 (Nat.succ_le_succ_iff.mp hl)⟩

theorem hasSub_append_right {q : Str} (a : Str) {b : Str}
    (h : hasSub q b = true) : hasSub q (a ++ b) = true := by
  induction a with
  | nil => simpa
  | cons c a' ih => simp [hasSub, ih]

theorem hasSub_append_left {q a : Str} (b : Str) (h : hasSub q a = true) :
    hasSub q (a ++ b) = true := by
  induction a with
  | nil =>
    simp only [hasSub, List.isEmpty_iff] at h
    subst h
    exact hasSub_nil b
  | cons c a' ih =>
    simp only [hasSub, Bool.or_eq_true] at h
    rcases h with h | h
    · have := pfx_append_left b h
      simp only [List.cons_append] at this ⊢
      simp [hasSub, this]
    · simp [hasSub, ih h]

theorem countOccs_le_cons (q : Str) (c : Char) (t : Str) :
    countOccs q t ≤ countOccs q (c :: t) := by
  simp only [countOccs]
  exact Nat.le_add_left _ _

theorem countOccs_append_le (q a b : Str) :
    countOccs q a + countOccs q b ≤ countOccs q (a ++ b) := by
  induction a with
  | nil => simp [countOccs]
  | cons c a' ih =>
    have hmono : (if pfx q (c :: a') = true then 1 else 0)
        ≤ (if pfx q (c :: (a' ++ b)) = true then 1 else 0) := by
      by_cases hp : pfx q (c :: a') = true
      · have : pfx q (c :: a' ++ b) = true := pfx_append_left b hp
        simp only [List.cons_append] at this
        simp [hp, this]
      · simp [hp]
    rw [List.cons_append,
      show countOccs q (c :: (a' ++ b))
          = (if pfx q (c :: (a' ++ b)) = true then 1 else 0)
            + countOccs q (a' ++ b) from rfl,
      show countOccs q (c :: a')
          = (if pfx q (c :: a') = true then 1 else 0) + countOccs q a'
        from rfl]
    omega

theorem one_le_countOccs {q d : Str} (hq : q ≠ []) (h : hasSub q d = true) :
    1 ≤ countOccs q d := by
  induction d with
  | nil =>
    simp only [hasSub, List.isEmpty_iff] at h
    exact absurd h hq
  | cons c t ih =>
    simp only [hasSub, Bool.or_eq_true] at h
    simp only [countOccs]
    rcases h with h | h
    · simp [h]
    · have := ih h
      omega

/-! Facts about `pyStrip`. -/

theorem dropWhile_sp_idem (l : Str) :
    (l.dropWhile isSp).dropWhile isSp = l.dropWhile isSp := by
  induction l with
  | nil => rfl
  | cons c t ih =>
    by_cases h : isSp c = true
    · simp [List.dropWhile_cons, h, ih]
    · simp [List.dropWhile_cons, h]

theorem length_dropWhile_sp_le (l : Str) :
    (l.dropWhile isSp).length ≤ l.length := by
  induction l with
  | nil => simp
  | cons c t ih =>
    by_cases h : isSp c = true
    · simp only [List.dropWhile_cons, h, if_true]
      exact Nat.le_succ_of_le ih
    · simp [List.dropWhile_cons, h]

theorem isSp_head_false {c : Char} {t : Str}
    (h : (c :: t).dropWhile isSp = c :: t) : isSp c = false := by
  by_cases hc : isSp c = true
  · rw [List.dropWhile_cons, if_pos hc] at h
    have := length_dropWhile_sp_le t
    rw [h] at this
    simp at this
  · simpa using hc

theorem dropWhile_sp_cons_of_neg {c : Char} (t : Str) (h : isSp c = false) :
    (c :: t).dropWhile isSp = c :: t := by
  simp [List.dropWhile_cons, h]

theorem pyStrip_eq_self {l : Str} (h1 : l.dropWhile isSp = l)
    (h2 : l.reverse.dropWhile isSp = l.reverse) : pyStrip l = l := by
  unfold pyStrip
  rw [h1, h2, List.reverse_reverse]

theorem noLead_pyStrip (l : Str) :
    (pyStrip l).dropWhile isSp = pyStrip l := by
  have hpre : pyStrip l <+: l.dropWhile isSp := by
    have hsuf : (l.dropWhile isSp).reverse.dropWhile isSp
        <:+ (l.dropWhile isSp).reverse := List.dropWhile_suffix _
    have hsuf2 : (pyStrip l).reverse <:+ (l.dropWhile isSp).reverse := by
      unfold pyStrip
      rw [List.reverse_reverse]
      exact hsuf
    exact List.reverse_suffix.mp hsuf2
  obtain ⟨s, hs⟩ := hpre
  rcases hb : pyStrip l with _ | ⟨c, bt⟩
  · simp
  · rw [hb] at hs
    have ha : l.dropWhile isSp = c :: (bt ++ s) := by
      rw [← hs]; simp
    have hself := dropWhile_sp_idem l
    rw [ha] at hself
    exact dropWhile_sp_cons_of_neg bt (isSp_head_false hself)

theorem noLeadRev_pyStrip (l : Str) :
    (pyStrip l).reverse.dropWhile isSp = (pyStrip l).reverse := by
  unfold pyStrip
  rw [List.reverse_reverse]
  exact dropWhile_sp_idem _

theorem pyStrip_idem (l : Str) : pyStrip (pyStrip l) = pyStrip l :=
  pyStrip_eq_self (noLead_pyStrip l) (noLeadRev_pyStrip l)

theorem pyStrip_cons_sp (l : Str) : pyStrip (' ' :: l) = pyStrip l := by
  unfold pyStrip
  rw [List.dropWhile_cons, if_pos (by decide : isSp ' ' = true)]

theorem mem_of_mem_pyStrip {x : Char} {l : Str} (h : x ∈ pyStrip l) :
    x ∈ l := by
  unfold pyStrip at h
  rw [List.mem_reverse] at h
  have hs1 : (l.dropWhile isSp).reverse.dropWhile isSp
      <:+ (l.dropWhile isSp).reverse := List.dropWhile_suffix isSp
  have h1 := hs1.sublist.subset h
  rw [List.mem_reverse] at h1
  have hs2 : l.dropWhile isSp <:+ l := List.dropWhile_suffix isSp
  exact hs2.sublist.subset h1

theorem pyStrip_append_imp {d : Str} (hd : pyStrip d = d) (hne : d ≠ []) :
    pyStrip (d ++ ' ' :: impS) = d ++ ' ' :: impS := by
  have hlead : d.dropWhile isSp = d := by
    have h := noLead_pyStrip d
    rwa [hd] at h
  apply pyStrip_eq_self
  · rcases d with _ | ⟨c, t⟩
    · exact absurd rfl hne
    · have hc := isSp_head_false hlead
      simpa using dropWhile_sp_cons_of_neg (t ++ ' ' :: impS) hc
  · rw [List.reverse_append]
    have himp : (' ' :: impS).reverse = 't' :: "natropmi! ".data := by decide
    rw [himp]
    exact dropWhile_sp_cons_of_neg _ (by decide)

/-! Facts about `pySplit`. -/

theorem pySplit_ne_nil (sep : Char) (l : Str) : pySplit sep l ≠ [] := by
  induction l with
  | nil => simp [pySplit]
  | cons c t ih =>
    simp only [pySplit]
    split <;> simp

theorem sep_not_mem_pySplit {sep : Char} :
    ∀ {l : Str}, ∀ x ∈ pySplit sep l, sep ∉ x := by
  intro l
  induction l with
  | nil =>
    intro x hx
    simp only [pySplit, List.mem_singleton] at hx
    simp [hx]
  | cons c t ih =>
    intro x hx
    rcases h : pySplit sep t with _ | ⟨p, r⟩
    · exact absurd h (pySplit_ne_nil sep t)
    · simp only [pySplit, h, List.headI_cons, List.tail_cons] at hx
      by_cases hc : (c == sep) = true
      · rw [if_pos hc] at hx
        rcases List.mem_cons.mp hx with hx | hx
        · simp [hx]
        · exact ih x (h ▸ hx)
      · rw [if_neg hc] at hx
        rcases List.mem_cons.mp hx with hx | hx
        · subst hx
          intro hmem
          rcases List.mem_cons.mp hmem with hh | hh
          · exact hc (by simp [hh])
          · exact ih p (h ▸ List.mem_cons_self p r) hh
        · exact ih x (h ▸ List.mem_cons_of_mem p hx)

theorem pySplit_append {sep : Char} {a : Str} (ha : sep ∉ a) (b : Str)
    {p : Str} {r : List Str} (hb : pySplit sep b = p :: r) :
    pySplit sep (a ++ b) = (a ++ p) :: r := by
  induction a with
  | nil => simpa using hb
  | cons c a' ih =>
    have hc : ¬ c = sep := fun h => ha (h ▸ List.mem_cons_self c a')
    have ih' := ih (fun h => ha (List.mem_cons_of_mem c h))
    simp only [List.cons_append, pySplit, List.append_eq]
    rw [if_neg (fun hcc => hc (by simpa using hcc)), ih']
    simp

theorem pySplit_sep_cons (sep : Char) (t : Str) :
    pySplit sep (sep :: t) = [] :: pySplit sep t := by
  simp [pySplit]

theorem pySplit_no_sep {sep : Char} {a : Str} (ha : sep ∉ a) :
    pySplit sep a = [a] := by
  have h := @pySplit_append sep a ha [] [] [] rfl
  simpa using h

/-! Facts about `joinDecls` and `adjustDecls`, leading to the WeChat
adjustment claims. -/

theorem joinDecls_cons_cons (d r : Str) (rs : List Str) :
    joinDecls (d :: r :: rs) = d ++ ';' :: ' ' :: joinDecls (r :: rs) := rfl

theorem joinDecls_ne_nil {d : Str} (rest : List Str) (hd : d ≠ []) :
    joinDecls (d :: rest) ≠ [] := by
  cases rest with
  | nil => simpa [joinDecls] using hd
  | cons r rs =>
    rw [joinDecls_cons_cons]
    simp [hd]

theorem pySplit_joinDecls :
    ∀ (d : Str) (rest : List Str), (';' : Char) ∉ d →
      (∀ x ∈ rest, (';' : Char) ∉ x) →
      pySplit ';' (joinDecls (d :: rest))
        = d :: rest.map (fun x => ' ' :: x) := by
  intro d rest
  induction rest generalizing d with
  | nil =>
    intro hd _
    simpa [joinDecls] using pySplit_no_sep hd
  | cons r rs ih =>
    intro hd hrest
    have hr := ih r (hrest r (List.mem_cons_self r rs))
      (fun x hx => hrest x (List.mem_cons_of_mem r hx))
    rw [joinDecls_cons_cons]
    have hsp : pySplit ';' (' ' :: joinDecls (r :: rs))
        = (' ' :: r) :: rs.map (fun x => ' ' :: x) := by
      simp only [pySplit, hr, List.headI_cons, List.tail_cons]
      rw [if_neg (by decide)]
    have hsemi : pySplit ';' (';' :: ' ' :: joinDecls (r :: rs))
        = [] :: (' ' :: r) :: rs.map (fun x => ' ' :: x) := by
      rw [pySplit_sep_cons, hsp]
    have := pySplit_append hd (';' :: ' ' :: joinDecls (r :: rs)) hsemi
    simpa using this

theorem adjustDecls_mem :
    ∀ {l : List Str}, (∀ x ∈ l, (';' : Char) ∉ x) →
      ∀ d ∈ adjustDecls l,
        d ≠ [] ∧ pyStrip d = d ∧ hasSub [':'] d = true ∧
          hasSub impS d = true ∧ (';' : Char) ∉ d := by
  intro l
  induction l with
  | nil =>
    intro _ d hd
    simp [adjustDecls] at hd
  | cons decl rest ih =>
    intro hl d hd
    have hrest := fun x hx => hl x (List.mem_cons_of_mem _ hx)
    have hdecl := hl decl (List.mem_cons_self _ _)
    simp only [adjustDecls] at hd
    by_cases hcond :
        (!(pyStrip decl).isEmpty && hasSub [':'] (pyStrip decl)) = true
    · rw [if_pos hcond] at hd
      rw [Bool.and_eq_true] at hcond
      obtain ⟨h1, hcolon⟩ := hcond
      have hd0ne : pyStrip decl ≠ [] := by
        intro h
        rw [h] at h1
        simp at h1
      have hstr : pyStrip (pyStrip decl) = pyStrip decl := pyStrip_idem decl
      have hsemi0 : (';' : Char) ∉ pyStrip decl :=
        fun hm => hdecl (mem_of_mem_pyStrip hm)
      rcases List.mem_cons.mp hd with hd | hd
      · by_cases himp : hasSub impS (pyStrip decl) = true
        · rw [if_pos himp] at hd
          subst hd
          exact ⟨hd0ne, hstr, hcolon, himp, hsemi0⟩
        · rw [if_neg himp] at hd
          subst hd
          refine ⟨by simp [hd0ne], pyStrip_append_imp hstr hd0ne,
            hasSub_append_left _ hcolon,
            hasSub_append_right _ (by decide :
              hasSub impS (' ' :: impS) = true), ?_⟩
          intro hm
          rcases List.mem_append.mp hm with hm | hm
          · exact hsemi0 hm
          · exact (by decide : (';' : Char) ∉ ' ' :: impS) hm
      · exact ih hrest d hd
    · rw [if_neg hcond] at hd
      exact ih hrest d hd

theorem adjustDecls_map_pyStrip :
    ∀ {es : List Str},
      (∀ e ∈ es, pyStrip e ≠ [] ∧ hasSub [':'] (pyStrip e) = true ∧
        hasSub impS (pyStrip e) = true) →
      adjustDecls es = es.map pyStrip := by
  intro es
  induction es with
  | nil => intro _; rfl
  | cons e es' ih =>
    intro h
    obtain ⟨hne, hcolon, himp⟩ := h e (List.mem_cons_self e es')
    have hcond : (!(pyStrip e).isEmpty && hasSub [':'] (pyStrip e)) = true := by
      rw [Bool.and_eq_true]
      exact ⟨by simp [hne], hcolon⟩
    simp only [adjustDecls, List.map_cons]
    rw [if_pos hcond, if_pos himp,
      ih (fun x hx => h x (List.mem_cons_of_mem e hx))]

/-- The conditions satisfied by every declaration produced by
`adjustDecls`. -/
def GoodDecl (d : Str) : Prop :=
  d ≠ [] ∧ pyStrip d = d ∧ hasSub [':'] d = true ∧ hasSub impS d = true

theorem adjustDecls_spaced {d : Str} {rest : List Str}
    (h : ∀ x ∈ d :: rest, GoodDecl x) :
    adjustDecls (d :: rest.map (fun x => ' ' :: x)) = d :: rest := by
  have hmap : adjustDecls (d :: rest.map (fun x => ' ' :: x))
      = (d :: rest.map (fun x => ' ' :: x)).map pyStrip := by
    apply adjustDecls_map_pyStrip
    intro e he
    rcases List.mem_cons.mp he with he | he
    · subst he
      obtain ⟨hne, hstr, hcolon, himp⟩ := h e (List.mem_cons_self _ _)
      rw [hstr]
      exact ⟨hne, hcolon, himp⟩
    · obtain ⟨x, hx, hex⟩ := List.mem_map.mp he
      subst hex
      obtain ⟨hne, hstr, hcolon, himp⟩ := h x (List.mem_cons_of_mem d hx)
      rw [pyStrip_cons_sp, hstr]
      exact ⟨hne, hcolon, himp⟩
  rw [hmap]
  obtain ⟨_, hstrd, _, _⟩ := h d (List.mem_cons_self d rest)
  simp only [List.map_cons, hstrd, List.map_map]
  congr 1
  have : ∀ x ∈ rest, pyStrip (' ' :: x) = x := by
    intro x hx
    obtain ⟨_, hstr, _, _⟩ := h x (List.mem_cons_of_mem d hx)
    rw [pyStrip_cons_sp, hstr]
  calc rest.map (pyStrip ∘ fun x => ' ' :: x)
      = rest.map id := List.map_congr_left (fun x hx => this x hx)
    _ = rest := List.map_id rest

theorem adjust_round_trip {d : Str} {rest : List Str}
    (hgood : ∀ x ∈ d :: rest, GoodDecl x)
    (hsemi : ∀ x ∈ d :: rest, (';' : Char) ∉ x) :
    adjustDecls (pySplit ';' (joinDecls (d :: rest))) = d :: rest := by
  rw [pySplit_joinDecls d rest (hsemi d (List.mem_cons_self d rest))
    (fun x hx => hsemi x (List.mem_cons_of_mem d hx))]
  exact adjustDecls_spaced hgood

theorem adjust_of_ne_nil {s : Str} (h : s ≠ []) :
    adjust_for_wechat_style s = joinDecls (adjustDecls (pySplit ';' s)) := by
  unfold adjust_for_wechat_style
  rw [if_neg (by simpa using h)]

theorem map_pyStrip_spaced {d : Str} {rest : List Str}
    (h : ∀ x ∈ d :: rest, pyStrip x = x) :
    (d :: rest.map (fun x => ' ' :: x)).map pyStrip = d :: rest := by
  simp only [List.map_cons, h d (List.mem_cons_self d rest), List.map_map]
  congr 1
  calc rest.map (pyStrip ∘ fun x => ' ' :: x)
      = rest.map id := List.map_congr_left (fun x hx => by
        simp only [Function.comp_apply, pyStrip_cons_sp]
        exact h x (List.mem_cons_of_mem d hx))
    _ = rest := List.map_id rest

theorem outDecls_join {d : Str} {rest : List Str}
    (hgood : ∀ x ∈ d :: rest, GoodDecl x)
    (hsemi : ∀ x ∈ d :: rest, (';' : Char) ∉ x) :
    outDecls (joinDecls (d :: rest)) = d :: rest := by
  unfold outDecls
  rw [pySplit_joinDecls d rest (hsemi d (List.mem_cons_self d rest))
    (fun x hx => hsemi x (List.mem_cons_of_mem d hx))]
  rw [map_pyStrip_spaced (fun x hx => (hgood x hx).2.1)]
  exact List.filter_eq_self.mpr (fun x hx => by simp [(hgood x hx).1])

theorem length_le_countOccs_join :
    ∀ (ds : List Str), (∀ x ∈ ds, hasSub impS x = true) →
      ds.length ≤ countOccs impS (joinDecls ds) := by
  intro ds
  induction ds with
  | nil => simp [joinDecls, countOccs]
  | cons d rest ih =>
    intro h
    cases rest with
    | nil =>
      simpa [joinDecls] using
        one_le_countOccs (by decide) (h d (List.mem_cons_self d []))
    | cons r rs =>
      rw [joinDecls_cons_cons]
      have h1 : 1 ≤ countOccs impS d :=
        one_le_countOccs (by decide) (h d (List.mem_cons_self d (r :: rs)))
      have h2 := ih (fun x hx => h x (List.mem_cons_of_mem d hx))
      have h3 := countOccs_append_le impS d (';' :: ' ' :: joinDecls (r :: rs))
      have h4 := countOccs_le_cons impS ' ' (joinDecls (r :: rs))
      have h5 := countOccs_le_cons impS ';' (' ' :: joinDecls (r :: rs))
      simp only [List.length_cons] at h2 ⊢
      omega

/-- C10: `_adjust_for_wechat_style` is idempotent: every declaration it
emits is stripped, nonempty, contains a colon and contains `!important`,
so re-splitting the `'; '`-joined output reproduces the same
declarations. -/
theorem wechat_adjust_idempotent (s : Str) :
    adjust_for_wechat_style (adjust_for_wechat_style s)
      = adjust_for_wechat_style s := by
  by_cases hs : s = []
  · subst hs; rfl
  · rw [adjust_of_ne_nil hs]
    have hprops := adjustDecls_mem
      (fun x hx => @sep_not_mem_pySplit ';' s x hx)
    rcases hds : adjustDecls (pySplit ';' s) with _ | ⟨d, rest⟩
    · rfl
    · rw [hds] at hprops
      have hgood : ∀ x ∈ d :: rest, GoodDecl x := fun x hx => by
        obtain ⟨h1, h2, h3, h4, _⟩ := hprops x hx
        exact ⟨h1, h2, h3, h4⟩
      have hsemi : ∀ x ∈ d :: rest, (';' : Char) ∉ x :=
        fun x hx => (hprops x hx).2.2.2.2
      have hdne : d ≠ [] := (hprops d (List.mem_cons_self d rest)).1
      rw [adjust_of_ne_nil (joinDecls_ne_nil rest hdne),
        adjust_round_trip hgood hsemi]

/-- C1 (counterexample): a declaration that already contains `!important`
somewhere in the middle is passed through unchanged, so not every
declaration of the output ends with `!important`. -/
theorem wechat_important_claim_false : ¬ wechatImportantClaim := by
  intro h
  have h2 := (h "color: red !important yellow".data (by decide)).1
    "color: red !important yellow".data (by decide)
  exact absurd h2 (by decide)

/-- C1 (amended): for every non-empty style string, every declaration of
the WeChat-adjusted output contains `!important` (a declaration that did
not already contain it receives a trailing ` !important`), and the number
of `!important` occurrences is at least the number of declarations. -/
theorem wechat_important_amended (s : Str) (hs : s ≠ []) :
    (∀ d ∈ outDecls (adjust_for_wechat_style s), hasSub impS d = true) ∧
    (outDecls (adjust_for_wechat_style s)).length
      ≤ countOccs impS (adjust_for_wechat_style s) := by
  rw [adjust_of_ne_nil hs]
  have hprops := adjustDecls_mem
    (fun x hx => @sep_not_mem_pySplit ';' s x hx)
  rcases hds : adjustDecls (pySplit ';' s) with _ | ⟨d, rest⟩
  · have h0 : outDecls (joinDecls ([] : List Str)) = [] := by decide
    rw [h0]
    simp [joinDecls, countOccs]
  · rw [hds] at hprops
    have hgood : ∀ x ∈ d :: rest, GoodDecl x := fun x hx => by
      obtain ⟨h1, h2, h3, h4, _⟩ := hprops x hx
      exact ⟨h1, h2, h3, h4⟩
    have hsemi : ∀ x ∈ d :: rest, (';' : Char) ∉ x :=
      fun x hx => (hprops x hx).2.2.2.2
    rw [outDecls_join hgood hsemi]
    exact ⟨fun x hx => (hgood x hx).2.2.2,
      length_le_countOccs_join (d :: rest) (fun x hx => (hgood x hx).2.2.2)⟩

/-- C1 (witness): the amended statement evaluated on a concrete style. -/
theorem wechat_important_amended_witness :
    ("color: red".data ≠ ([] : Str)) ∧
    ((∀ d ∈ outDecls (adjust_for_wechat_style "color: red".data),
        hasSub impS d = true) ∧
      (outDecls (adjust_for_wechat_style "color: red".data)).length
        ≤ countOccs impS (adjust_for_wechat_style "color: red".data)) :=
  ⟨by decide, wechat_important_amended "color: red".data (by decide)⟩

/-! Facts about `raGo`/`pyReplace`, leading to the dark-mode claims.  All
patterns and replacements in the `dark_adjustments` table start with `#`
and contain no other `#`, and every pattern is at most as long as every
replacement; under these conditions a replacement pass eliminates its
pattern and cannot (re)introduce any other such pattern. -/

theorem pfx_raGo (p rt : Str) :
    ∀ (t w : Str), '#' ∉ w →
      pfx w (raGo p ('#' :: rt) 0 t) = true → pfx w t = true := by
  intro t
  induction t with
  | nil =>
    intro w hw h
    cases w with
    | nil => exact pfx_nil _
    | cons x w' => simp [raGo, pfx] at h
  | cons c t ih =>
    intro w hw h
    cases w with
    | nil => exact pfx_nil _
    | cons x w' =>
      have hx : ¬ x = '#' := fun he => hw (he ▸ List.mem_cons_self x w')
      simp only [raGo] at h
      by_cases hm : pfx p (c :: t) = true
      · rw [if_pos hm] at h
        exfalso
        simp only [List.cons_append, pfx, Bool.and_eq_true] at h
        exact hx (by simpa using h.1)
      · rw [if_neg hm] at h
        simp only [pfx, Bool.and_eq_true] at h ⊢
        exact ⟨h.1, ih w' (fun hm' => hw (List.mem_cons_of_mem x hm')) h.2⟩

theorem hasSub_append_elim {q : Str} :
    ∀ (a b : Str), hasSub q (a ++ b) = true →
      (∃ i, i < a.length ∧ pfx q (a.drop i ++ b) = true)
        ∨ hasSub q b = true := by
  intro a
  induction a with
  | nil => intro b h; right; simpa using h
  | cons c a' ih =>
    intro b h
    simp only [List.cons_append, hasSub, Bool.or_eq_true] at h
    rcases h with h | h
    · left
      exact ⟨0, Nat.succ_pos _, by simpa using h⟩
    · rcases ih b h with ⟨i, hi, hp⟩ | h
      · left
        exact ⟨i + 1, Nat.succ_lt_succ hi, by simpa using hp⟩
      · right
        exact h

theorem no_occ_in_rep {qt rt X : Str} (hrt : '#' ∉ rt)
    (hpre : pfx ('#' :: qt) ('#' :: rt) = false)
    (hlen : qt.length ≤ rt.length)
    (hX : hasSub ('#' :: qt) X = false) :
    hasSub ('#' :: qt) (('#' :: rt) ++ X) = false := by
  by_contra h
  have h' : hasSub ('#' :: qt) (('#' :: rt) ++ X) = true := by
    revert h
    cases hasSub ('#' :: qt) (('#' :: rt) ++ X) <;> simp
  rcases hasSub_append_elim _ X h' with ⟨i, hi, hp⟩ | h2
  · cases i with
    | zero =>
      have hpp : pfx ('#' :: qt) ('#' :: rt) = true := by
        refine pfx_of_append X ?_ ?_
        · simpa using hp
        · simpa using Nat.succ_le_succ hlen
      rw [hpp] at hpre
      exact absurd hpre (by simp)
    | succ j =>
      have hj : j < rt.length := by simpa using hi
      rcases hd : rt.drop j with _ | ⟨y, ys⟩
      · rw [List.drop_eq_nil_iff] at hd
        omega
      · rw [List.drop_succ_cons, hd] at hp
        simp only [List.cons_append, pfx, Bool.and_eq_true] at hp
        have hy : y = '#' := by
          have := hp.1
          simp only [beq_iff_eq] at this
          exact this.symm
        have : y ∈ rt := List.drop_subset j rt (hd ▸ List.mem_cons_self y ys)
        exact hrt (hy ▸ this)
  · rw [h2] at hX
    exact absurd hX (by simp)

theorem raGo_elim {pt rt : Str} (hph : '#' ∉ pt) (hrt : '#' ∉ rt)
    (hpre : pfx ('#' :: pt) ('#' :: rt) = false)
    (hlen : pt.length ≤ rt.length) :
    ∀ (t : Str) (k : Nat),
      hasSub ('#' :: pt) (raGo ('#' :: pt) ('#' :: rt) k t) = false := by
  intro t
  induction t with
  | nil => intro k; simp [raGo, hasSub]
  | cons c t ih =>
    intro k
    cases k with
    | succ k' =>
      simp only [raGo]
      exact ih k'
    | zero =>
      simp only [raGo]
      by_cases hm : pfx ('#' :: pt) (c :: t) = true
      · rw [if_pos hm]
        exact no_occ_in_rep hrt hpre hlen (ih _)
      · rw [if_neg hm]
        simp only [hasSub]
        rw [ih 0, Bool.or_false]
        by_contra hcp
        have hcp' : pfx ('#' :: pt)
            (c :: raGo ('#' :: pt) ('#' :: rt) 0 t) = true := by
          revert hcp
          cases pfx ('#' :: pt) (c :: raGo ('#' :: pt) ('#' :: rt) 0 t) <;> simp
        simp only [pfx, Bool.and_eq_true] at hcp'
        obtain ⟨hc, hrest⟩ := hcp'
        apply hm
        simp only [pfx, Bool.and_eq_true]
        exact ⟨hc, pfx_raGo ('#' :: pt) rt t pt hph hrest⟩

theorem raGo_preserve {p qt rt : Str} (hqh : '#' ∉ qt) (hrt : '#' ∉ rt)
    (hpre : pfx ('#' :: qt) ('#' :: rt) = false)
    (hlen : qt.length ≤ rt.length) :
    ∀ (t : Str) (k : Nat), hasSub ('#' :: qt) t = false →
      hasSub ('#' :: qt) (raGo p ('#' :: rt) k t) = false := by
  intro t
  induction t with
  | nil => intro k _; simp [raGo, hasSub]
  | cons c t ih =>
    intro k hocc
    have hocc_t : hasSub ('#' :: qt) t = false := by
      by_contra h
      have h' : hasSub ('#' :: qt) t = true := by
        revert h; cases hasSub ('#' :: qt) t <;> simp
      simp [hasSub, h'] at hocc
    have hpfx_ct : pfx ('#' :: qt) (c :: t) = false := by
      by_contra h
      have h' : pfx ('#' :: qt) (c :: t) = true := by
        revert h; cases pfx ('#' :: qt) (c :: t) <;> simp
      simp [hasSub, h'] at hocc
    cases k with
    | succ k' =>
      simp only [raGo]
      exact ih k' hocc_t
    | zero =>
      simp only [raGo]
      by_cases hm : pfx p (c :: t) = true
      · rw [if_pos hm]
        exact no_occ_in_rep hrt hpre hlen (ih _ hocc_t)
      · rw [if_neg hm]
        simp only [hasSub]
        rw [ih 0 hocc_t, Bool.or_false]
        by_contra hcp
        have hcp' : pfx ('#' :: qt) (c :: raGo p ('#' :: rt) 0 t) = true := by
          revert hcp
          cases pfx ('#' :: qt) (c :: raGo p ('#' :: rt) 0 t) <;> simp
        simp only [pfx, Bool.and_eq_true] at hcp'
        obtain ⟨hc, hrest⟩ := hcp'
        have : pfx ('#' :: qt) (c :: t) = true := by
          simp only [pfx, Bool.and_eq_true]
          exact ⟨hc, pfx_raGo p rt t qt hqh hrest⟩
        rw [this] at hpfx_ct
        exact absurd hpfx_ct (by simp)

theorem pyReplace_preserve {p qt rt : Str} (hqh : '#' ∉ qt)
    (hrt : '#' ∉ rt) (hpre : pfx ('#' :: qt) ('#' :: rt) = false)
    (hlen : qt.length ≤ rt.length) {t : Str}
    (h : hasSub ('#' :: qt) t = false) :
    hasSub ('#' :: qt) (pyReplace p ('#' :: rt) t) = false :=
  raGo_preserve hqh hrt hpre hlen t 0 h

theorem pyReplace_elim {pt rt : Str} (hph : '#' ∉ pt) (hrt : '#' ∉ rt)
    (hpre : pfx ('#' :: pt) ('#' :: rt) = false)
    (hlen : pt.length ≤ rt.length) (t : Str) :
    hasSub ('#' :: pt) (pyReplace ('#' :: pt) ('#' :: rt) t) = false :=
  raGo_elim hph hrt hpre hlen t 0

/-- C2 (counterexample): `#000000` is replaced by `#ffffff`, which is one
of the light colors of the table, so an all-table input can produce an
output containing a light color. -/
theorem dark_mode_claim_false : ¬ darkModeClaim := by
  intro h
  have h2 := h "#000000".data (by decide) "#ffffff".data (by decide)
  exact absurd h2 (by decide)

/-- C2 (amended): for every style string — in particular every string
whose hex color literals come from the table — the dark-mode output
contains none of the original light colors except possibly `#ffffff` and
`#fff`, which arise as the replacement of `#000000`/`#000`. -/
theorem dark_mode_amended (s : Str) :
    ∀ c ∈ darkSafeColors,
      hasSub c (apply_dark_mode_adjustments_to_style s) = false := by
  intro c hc
  have hunfold : apply_dark_mode_adjustments_to_style s
      = pyReplace "#f7f7f7".data "#2c3e50".data
        (pyReplace "#ecf0f1".data "#2c3e50".data
        (pyReplace "#f8f9fa".data "#2c3e50".data
        (pyReplace "#000".data "#ffffff".data
        (pyReplace "#000000".data "#ffffff".data
        (pyReplace "#555".data "#b0b0b0".data
        (pyReplace "#555555".data "#b0b0b0".data
        (pyReplace "#333".data "#e8e8e8".data
        (pyReplace "#333333".data "#e8e8e8".data
        (pyReplace "#fff".data "#1a1a1a".data
        (pyReplace "#ffffff".data "#1a1a1a".data s)))))))))) := rfl
  rw [hunfold]
  simp only [darkSafeColors, List.mem_cons, List.not_mem_nil, or_false] at hc
  rcases hc with rfl | rfl | rfl | rfl | rfl | rfl | rfl | rfl | rfl
  · exact pyReplace_preserve (by decide) (by decide) (by decide) (by decide)
      (pyReplace_preserve (by decide) (by decide) (by decide) (by decide)
      (pyReplace_preserve (by decide) (by decide) (by decide) (by decide)
      (pyReplace_preserve (by decide) (by decide) (by decide) (by decide)
      (pyReplace_preserve (by decide) (by decide) (by decide) (by decide)
      (pyReplace_preserve (by decide) (by decide) (by decide) (by decide)
      (pyReplace_preserve (by decide) (by decide) (by decide) (by decide)
      (pyReplace_preserve (by decide) (by decide) (by decide) (by decide)
      (pyReplace_elim (by decide) (by decide) (by decide) (by decide) _))))))))
  · exact pyReplace_preserve (by decide) (by decide) (by decide) (by decide)
      (pyReplace_preserve (by decide) (by decide) (by decide) (by decide)
      (pyReplace_preserve (by decide) (by decide) (by decide) (by decide)
      (pyReplace_preserve (by decide) (by decide) (by decide) (by decide)
      (pyReplace_preserve (by decide) (by decide) (by decide) (by decide)
      (pyReplace_preserve (by decide) (by decide) (by decide) (by decide)
      (pyReplace_preserve (by decide) (by decide) (by decide) (by decide)
      (pyReplace_elim (by decide) (by decide) (by decide) (by decide) _)))))))
  · exact pyReplace_preserve (by decide) (by decide) (by decide) (by decide)
      (pyReplace_preserve (by decide) (by decide) (by decide) (by decide)
      (pyReplace_preserve (by decide) (by decide) (by decide) (by decide)
      (pyReplace_preserve (by decide) (by decide) (by decide) (by decide)
      (pyReplace_preserve (by decide) (by decide) (by decide) (by decide)
      (pyReplace_preserve (by decide) (by decide) (by decide) (by decide)
      (pyReplace_elim (by decide) (by decide) (by decide) (by decide) _))))))
  · exact pyReplace_preserve (by decide) (by decide) (by decide) (by decide)
      (pyReplace_preserve (by decide) (by decide) (by decide) (by decide)
      (pyReplace_preserve (by decide) (by decide) (by decide) (by decide)
      (pyReplace_preserve (by decide) (by decide) (by decide) (by decide)
      (pyReplace_preserve (by decide) (by decide) (by decide) (by decide)
      (pyReplace_elim (by decide) (by decide) (by decide) (by decide) _)))))
  · exact pyReplace_preserve (by decide) (by decide) (by decide) (by decide)
      (pyReplace_preserve (by decide) (by decide) (by decide) (by decide)
      (pyReplace_preserve (by decide) (by decide) (by decide) (by decide)
      (pyReplace_preserve (by decide) (by decide) (by decide) (by decide)
      (pyReplace_elim (by decide) (by decide) (by decide) (by decide) _))))
  · exact pyReplace_preserve (by decide) (by decide) (by decide) (by decide)
      (pyReplace_preserve (by decide) (by decide) (by decide) (by decide)
      (pyReplace_preserve (by decide) (by decide) (by decide) (by decide)
      (pyReplace_elim (by decide) (by decide) (by decide) (by decide) _)))
  · exact pyReplace_preserve (by decide) (by decide) (by decide) (by decide)
      (pyReplace_preserve (by decide) (by decide) (by decide) (by decide)
      (pyReplace_elim (by decide) (by decide) (by decide) (by decide) _))
  · exact pyReplace_preserve (by decide) (by decide) (by decide) (by decide)
      (pyReplace_elim (by decide) (by decide) (by decide) (by decide) _)
  · exact pyReplace_elim (by decide) (by decide) (by decide) (by decide) _

/-- C2 (witness): the amended statement evaluated on a concrete style and
color. -/
theorem dark_mode_amended_witness :
    ("#333333".data ∈ darkSafeColors) ∧
    hasSub "#333333".data
      (apply_dark_mode_adjustments_to_style "color: #333333".data) = false :=
  ⟨by decide, dark_mode_amended "color: #333333".data "#333333".data (by decide)⟩

/-! Title extraction (C6). -/

theorem titleScan_fallback :
    ∀ ls : List Str,
      (∀ l ∈ ls, ¬(pfx ['#'] l = true ∧ pfx ['#', '#'] l = false)) →
      titleScan ls = fallbackTitle := by
  intro ls
  induction ls with
  | nil => intro _; rfl
  | cons l rest ih =>
    intro h
    have hg : (pfx ['#'] l && !pfx ['#', '#'] l) = false := by
      have := h l (List.mem_cons_self l rest)
      cases h1 : pfx ['#'] l <;> cases h2 : pfx ['#', '#'] l <;> simp_all
    simp only [titleScan, hg, Bool.false_eq_true, if_false]
    exact ih (fun x hx => h x (List.mem_cons_of_mem l hx))

theorem titleScan_cases :
    ∀ ls : List Str, titleScan ls = fallbackTitle ∨
      ∃ l ∈ ls, pfx ['#'] l = true ∧ pfx ['#', '#'] l = false ∧
        titleScan ls = pyStrip (replaceFirst '#' l) := by
  intro ls
  induction ls with
  | nil => exact Or.inl rfl
  | cons l rest ih =>
    by_cases hg : (pfx ['#'] l && !pfx ['#', '#'] l) = true
    · right
      rw [Bool.and_eq_true] at hg
      refine ⟨l, List.mem_cons_self l rest, hg.1, ?_, ?_⟩
      · cases h2 : pfx ['#', '#'] l
        · rfl
        · rw [h2] at hg
          simpa using hg.2
      · simp only [titleScan]
        rw [if_pos (by rw [Bool.and_eq_true]; exact hg)]
    · have hg' : (pfx ['#'] l && !pfx ['#', '#'] l) = false := by
        cases h : (pfx ['#'] l && !pfx ['#', '#'] l)
        · rfl
        · exact absurd h hg
      simp only [titleScan, hg', Bool.false_eq_true, if_false]
      rcases ih with h | ⟨l', hl', h1, h2, h3⟩
      · exact Or.inl h
      · exact Or.inr ⟨l', List.mem_cons_of_mem l hl', h1, h2, h3⟩

/-- C6: extracting a title from `"# Hello\n\nBody"` yields `"Hello"`; when
no line starts with `#` without starting with `##`, the fallback `默认标题`
is returned; and the title, when not the fallback, always comes from a
line that starts with `#` but not `##` (so a `##` line is never
selected). -/
theorem extract_title_spec :
    extract_title_from_markdown "# Hello\n\nBody".data = "Hello".data ∧
    (∀ s : Str,
      (∀ l ∈ pySplit '\n' s,
        ¬(pfx ['#'] l = true ∧ pfx ['#', '#'] l = false)) →
      extract_title_from_markdown s = fallbackTitle) ∧
    (∀ s : Str, extract_title_from_markdown s = fallbackTitle ∨
      ∃ l ∈ pySplit '\n' s, pfx ['#'] l = true ∧ pfx ['#', '#'] l = false ∧
        extract_title_from_markdown s = pyStrip (replaceFirst '#' l)) :=
  ⟨by decide,
   fun s h => titleScan_fallback (pySplit '\n' s) h,
   fun s => titleScan_cases (pySplit '\n' s)⟩

/-- C6 (witness): the fallback branch evaluated on a heading-free text and
a text whose only heading is second-level. -/
theorem extract_title_spec_witness :
    extract_title_from_markdown "plain\n## second\ntext".data
      = fallbackTitle :=
  extract_title_spec.2.1 "plain\n## second\ntext".data (by decide)

/-! The selector loop (C4, C5). -/

theorem styleLoop_selectOrEmpty
    (select : Str → List Str → Except Str (List Nat)) (mode platform : Str) :
    ∀ (styles : List (Str × Str)) (soup : List Str),
      styleLoop select mode platform styles soup
        = styleLoop (selectOrEmpty select) mode platform styles soup := by
  intro styles
  induction styles with
  | nil => intro _; rfl
  | cons e rest ih =>
    intro soup
    obtain ⟨sel, props⟩ := e
    simp only [styleLoop]
    by_cases hres : sel ∈ reservedSelectors
    · rw [if_pos hres, if_pos hres]
      exact ih soup
    · rw [if_neg hres, if_neg hres]
      rcases hsel : select sel soup with err | idxs
      · have hse : selectOrEmpty select sel soup = .ok [] := by
          simp [selectOrEmpty, hsel]
        simp only [hsel, hse]
        rw [show applyIdxs (adjustStyle mode platform props) [] soup = soup
          from rfl]
        exact ih soup
      · have hse : selectOrEmpty select sel soup = .ok idxs := by
          simp [selectOrEmpty, hsel]
        simp only [hsel, hse]
        exact ih _

/-- C4: a selector for which element matching fails is silently skipped —
running the styling with the real select oracle gives exactly the same
wrapped result as running it with an oracle in which every failure is
replaced by an empty match list, so all other selectors are still applied
and no error is surfaced. -/
theorem selector_error_skipped
    (select : Str → List Str → Except Str (List Nat))
    (styles : List (Str × Str)) (soup : List Str) (mode platform : Str) :
    apply_theme_styling select styles soup mode platform
      = apply_theme_styling (selectOrEmpty select) styles soup mode platform := by
  unfold apply_theme_styling
  rw [styleLoop_selectOrEmpty]

theorem styleLoop_filter_reserved
    (select : Str → List Str → Except Str (List Nat)) (mode platform : Str) :
    ∀ (styles : List (Str × Str)) (soup : List Str),
      styleLoop select mode platform styles soup
        = styleLoop select mode platform
            (styles.filter (fun e => !(decide (e.1 ∈ reservedSelectors))))
            soup := by
  intro styles
  induction styles with
  | nil => intro _; rfl
  | cons e rest ih =>
    intro soup
    obtain ⟨sel, props⟩ := e
    by_cases hres : sel ∈ reservedSelectors
    · rw [show ((sel, props) :: rest).filter
          (fun e => !(decide (e.1 ∈ reservedSelectors)))
          = rest.filter (fun e => !(decide (e.1 ∈ reservedSelectors)))
        from by simp [List.filter_cons, hres]]
      simp only [styleLoop]
      rw [if_pos hres]
      exact ih soup
    · rw [show ((sel, props) :: rest).filter
          (fun e => !(decide (e.1 ∈ reservedSelectors)))
          = (sel, props) :: rest.filter
              (fun e => !(decide (e.1 ∈ reservedSelectors)))
        from by simp [List.filter_cons, hres]]
      simp only [styleLoop]
      rw [if_neg hres, if_neg hres]
      rcases hsel : select sel soup with err | idxs
      · exact ih soup
      · exact ih _

/-- C5: the reserved selectors `container` and `innerContainer` are never
applied to content elements — the element loop behaves as if they were
absent from the style map — and their (mode/platform-adjusted) declaration
strings appear only as the `style` attribute of the generated outer
container section and, when nonempty, of the inner container section. -/
theorem reserved_selectors_wrapper_only
    (select : Str → List Str → Except Str (List Nat))
    (styles : List (Str × Str)) (soup : List Str) (mode platform : Str) :
    (apply_theme_styling select styles soup mode platform).contents
      = styleLoop select mode platform
          (styles.filter (fun e => !(decide (e.1 ∈ reservedSelectors)))) soup ∧
    (apply_theme_styling select styles soup mode platform).containerAttr
      = (if (adjustContainerStyle mode platform
              (lookupD styles "container".data)).isEmpty then none
         else some (adjustContainerStyle mode platform
              (lookupD styles "container".data))) ∧
    (apply_theme_styling select styles soup mode platform).innerAttr
      = (if (adjustContainerStyle mode platform
              (lookupD styles "innerContainer".data)).isEmpty then none
         else some (adjustContainerStyle mode platform
              (lookupD styles "innerContainer".data))) :=
  ⟨(styleLoop_filter_reserved select mode platform styles soup), rfl, rfl⟩

/-! Renderer statelessness (C8). -/

/-- C8: when the converter's `reset` restores the initial state —
modelled from the spec's contract that the converter instance is reset
after each use — rendering a second input on a used renderer produces the
same HTML as rendering it on a fresh renderer. -/
theorem render_stateless {Sigma : Type} (convert : Sigma → Str → Str × Sigma)
    (reset : Sigma → Sigma) (preprocessFn styleFn : Str → Str) (init : Sigma)
    (hreset : ∀ st, reset st = init) (t1 t2 : Str) :
    (renderer_render convert reset preprocessFn styleFn
        (renderer_render convert reset preprocessFn styleFn init t1).2 t2).1
      = (renderer_render convert reset preprocessFn styleFn init t2).1 := by
  simp [renderer_render, hreset]

/-- C8 (witness): the statelessness statement on a concrete converter
whose state counts invocations. -/
theorem render_stateless_witness :
    (renderer_render (fun (st : Nat) (t : Str) => (t, st + 1)) (fun _ => 0)
        id id
        (renderer_render (fun (st : Nat) (t : Str) => (t, st + 1))
          (fun _ => 0) id id 0 "a".data).2 "b".data).1
      = (renderer_render (fun (st : Nat) (t : Str) => (t, st + 1))
          (fun _ => 0) id id 0 "b".data).1 :=
  render_stateless _ _ _ _ 0 (fun _ => rfl) "a".data "b".data

/-! The custom-style store (C9). -/

theorem lookup_dictSet_self (k : Str) (v : List (Str × Str)) :
    ∀ store, (dictSet k v store).lookup k = some v := by
  intro store
  induction store with
  | nil => simp [dictSet]
  | cons e rest ih =>
    obtain ⟨k', v'⟩ := e
    by_cases h : k' = k
    · subst h
      simp [dictSet]
    · have hb : (k == k') = false :=
        beq_eq_false_iff_ne.mpr (fun hh => h hh.symm)
      simp only [dictSet, if_neg h, List.lookup_cons, hb]
      exact ih

theorem lookup_dictSet_other {k k2 : Str} (hne : k2 ≠ k)
    (v : List (Str × Str)) :
    ∀ store, (dictSet k v store).lookup k2 = store.lookup k2 := by
  intro store
  have hb : (k2 == k) = false := beq_eq_false_iff_ne.mpr hne
  induction store with
  | nil => simp [dictSet, List.lookup_cons, hb]
  | cons e rest ih =>
    obtain ⟨k', v'⟩ := e
    by_cases h : k' = k
    · subst h
      simp [dictSet, List.lookup_cons, hb]
    · simp only [dictSet, if_neg h, List.lookup_cons]
      cases hb2 : k2 == k'
      · simpa only [hb2] using ih
      · simp only [hb2]

theorem lookup_eq_none_of_not_mem_keys {k : Str} :
    ∀ {store : List (Str × List (Str × Str))},
      k ∉ store.map Prod.fst → store.lookup k = none := by
  intro store
  induction store with
  | nil => intro _; rfl
  | cons e rest ih =>
    obtain ⟨k', v'⟩ := e
    intro h
    simp only [List.map_cons, List.mem_cons] at h
    push_neg at h
    have hb : (k == k') = false := beq_eq_false_iff_ne.mpr h.1
    simp only [List.lookup_cons, hb]
    exact ih h.2

theorem lookup_dictDel_self {k : Str} :
    ∀ {store}, KeysNodup store → (dictDel k store).lookup k = none := by
  intro store
  induction store with
  | nil => intro _; rfl
  | cons e rest ih =>
    obtain ⟨k', v'⟩ := e
    intro hnd
    simp only [KeysNodup, List.map_cons, List.nodup_cons] at hnd
    by_cases h : k' = k
    · subst h
      simp only [dictDel, if_pos rfl]
      exact lookup_eq_none_of_not_mem_keys hnd.1
    · have hb : (k == k') = false :=
        beq_eq_false_iff_ne.mpr (fun hh => h hh.symm)
      simp only [dictDel, if_neg h, List.lookup_cons, hb]
      exact ih hnd.2

theorem lookup_dictDel_other {k k2 : Str} (hne : k2 ≠ k) :
    ∀ store, (dictDel k store).lookup k2 = store.lookup k2 := by
  intro store
  have hb : (k2 == k) = false := beq_eq_false_iff_ne.mpr hne
  induction store with
  | nil => rfl
  | cons e rest ih =>
    obtain ⟨k', v'⟩ := e
    by_cases h : k' = k
    · subst h
      simp [dictDel, List.lookup_cons, hb]
    · simp only [dictDel, if_neg h, List.lookup_cons]
      cases hb2 : k2 == k'
      · simpa only [hb2] using ih
      · simp only [hb2]

theorem mem_keys_dictSet {x k : Str} (v : List (Str × Str)) :
    ∀ store, x ∈ (dictSet k v store).map Prod.fst →
      x = k ∨ x ∈ store.map Prod.fst := by
  intro store
  induction store with
  | nil =>
    intro h
    rw [show dictSet k v [] = [(k, v)] from rfl] at h
    simp only [List.map_cons, List.map_nil, List.mem_singleton] at h
    exact Or.inl h
  | cons e rest ih =>
    obtain ⟨k', v'⟩ := e
    intro h
    by_cases hk : k' = k
    · subst hk
      rw [show dictSet k' v ((k', v') :: rest) = (k', v) :: rest from by
        simp [dictSet]] at h
      simp only [List.map_cons, List.mem_cons] at h
      rcases h with h | h
      · exact Or.inl h
      · right
        simp only [List.map_cons, List.mem_cons]
        exact Or.inr h
    · rw [show dictSet k v ((k', v') :: rest)
          = (k', v') :: dictSet k v rest from by simp [dictSet, hk]] at h
      simp only [List.map_cons, List.mem_cons] at h
      rcases h with h | h
      · right
        simp only [List.map_cons, List.mem_cons]
        exact Or.inl h
      · rcases ih h with h | h
        · exact Or.inl h
        · right
          simp only [List.map_cons, List.mem_cons]
          exact Or.inr h

theorem keysNodup_dictSet {k : Str} (v : List (Str × Str)) :
    ∀ {store}, KeysNodup store → KeysNodup (dictSet k v store) := by
  intro store
  induction store with
  | nil => intro _; simp [KeysNodup, dictSet]
  | cons e rest ih =>
    obtain ⟨k', v'⟩ := e
    intro hnd
    simp only [KeysNodup, List.map_cons, List.nodup_cons] at hnd
    by_cases h : k' = k
    · subst h
      have hset : dictSet k' v ((k', v') :: rest) = (k', v) :: rest := by
        simp [dictSet]
      unfold KeysNodup
      rw [hset]
      simp only [List.map_cons, List.nodup_cons]
      exact hnd
    · have hset : dictSet k v ((k', v') :: rest)
          = (k', v') :: dictSet k v rest := by simp [dictSet, h]
      unfold KeysNodup
      rw [hset]
      simp only [List.map_cons, List.nodup_cons]
      refine ⟨?_, ih hnd.2⟩
      intro hmem
      rcases mem_keys_dictSet v rest hmem with hh | hh
      · exact h hh
      · exact hnd.1 hh

/-- C9: custom-style CRUD round trip on a store with no repeated keys
(the invariant of the Python dict): a save stores the map, a second save
with the same key overwrites it, a delete reports success and makes the
following get fail with not-found, and every operation leaves every other
key unchanged. -/
theorem custom_style_crud (store : List (Str × List (Str × Str)))
    (k : Str) (s : List (Str × Str)) (hnd : KeysNodup store) :
    get_custom_style (save_custom_style store k s).1 k = .okStyles k s ∧
    (∀ s2, get_custom_style
        (save_custom_style (save_custom_style store k s).1 k s2).1 k
        = .okStyles k s2) ∧
    (delete_custom_style (save_custom_style store k s).1 k).2 = .okMsg k ∧
    get_custom_style
        (delete_custom_style (save_custom_style store k s).1 k).1 k
      = .notFound k ∧
    (∀ k2, k2 ≠ k →
      (save_custom_style store k s).1.lookup k2 = store.lookup k2 ∧
      (delete_custom_style store k).1.lookup k2 = store.lookup k2) := by
  refine ⟨?_, ?_, ?_, ?_, ?_⟩
  · simp [get_custom_style, save_custom_style, lookup_dictSet_self]
  · intro s2
    simp [get_custom_style, save_custom_style, lookup_dictSet_self]
  · simp [delete_custom_style, save_custom_style, lookup_dictSet_self]
  · have hnd' : KeysNodup (dictSet k s store) := keysNodup_dictSet s hnd
    simp only [get_custom_style, save_custom_style, delete_custom_style,
      lookup_dictSet_self]
    rw [lookup_dictDel_self hnd']
  · intro k2 hne
    constructor
    · simpa [save_custom_style] using lookup_dictSet_other hne s store
    · simp only [delete_custom_style]
      rcases hl : store.lookup k with _ | v
      · rfl
      · simpa using lookup_dictDel_other hne store

/-- C9 (witness): the CRUD round trip on a concrete store and key. -/
theorem custom_style_crud_witness :
    get_custom_style
      (save_custom_style [("other".data, [])] "k".data
        [("h1".data, "color: red".data)]).1 "k".data
      = .okStyles "k".data [("h1".data, "color: red".data)] :=
  (custom_style_crud [("other".data, [])] "k".data
    [("h1".data, "color: red".data)] (by simp [KeysNodup])).1

/-! The `/render` fallback (C7). -/

/-- C7 (counterexample): with one available theme whose only mode is
`light-mode`, a request for a missing theme with mode `dark-mode` is not
answered with a success response — the mode check rejects it (and the
blanket `except` even turns the 400 into a 500). -/
theorem render_fallback_claim_false : ¬ renderFallbackClaim := by
  intro h
  obtain ⟨h1, _⟩ := h cexThemes [] cexRender cexRenderCustom cexModeMsg
    cexExcToStr [] "nope".data "dark-mode".data "wechat".data
    (by decide) (by decide)
  obtain ⟨html, heq⟩ := h1 "d".data ⟨[], ["light-mode".data]⟩ [] rfl
  have hcomp : render_markdown cexThemes [] cexRender cexRenderCustom
      cexModeMsg cexExcToStr [] "nope".data "dark-mode".data "wechat".data
      = .httpError 500 ("Rendering error: ".data ++ []) := by decide
  rw [hcomp] at heq
  exact HandlerResult.noConfusion heq

/-- C7 (amended): when the requested theme is neither predefined nor
custom, a nonempty theme table makes the handler substitute the first
predefined theme; the request succeeds with that theme only if the
requested mode passes the mode check against it, otherwise the mode-check
HTTPException(400) is re-raised by the blanket handler as a 500.  With an
empty theme table the `No themes available` HTTPException(400) is likewise
surfaced as a 500, not a 400. -/
theorem render_fallback_amended
    (themes : List (Str × ThemeCfg))
    (customs : List (Str × List (Str × Str)))
    (renderFn : Str → Str → Str → Str → Str)
    (renderCustomFn : Str → Str → Str → Str → List (Str × Str) → Str)
    (modeMsgFn : Str → Str → List Str → Str)
    (excToStr : Nat → Str → Str)
    (text theme mode platform : Str)
    (hth : themes.lookup theme = none)
    (hcu : customs.lookup theme = none) :
    (∀ n cfg rest, themes = (n, cfg) :: rest →
      render_markdown themes customs renderFn renderCustomFn modeMsgFn
          excToStr text theme mode platform
        = if !cfg.modes.isEmpty && !cfg.modes.contains mode then
            .httpError 500 ("Rendering error: ".data
              ++ excToStr 400 (modeMsgFn mode n cfg.modes))
          else .success (renderFn text n mode platform) n platform) ∧
    (themes = [] →
      render_markdown themes customs renderFn renderCustomFn modeMsgFn
          excToStr text theme mode platform
        = .httpError 500 ("Rendering error: ".data
            ++ excToStr 400 "No themes available".data)) := by
  constructor
  · intro n cfg rest hthemes
    subst hthemes
    by_cases hmode : (!cfg.modes.isEmpty && !cfg.modes.contains mode) = true
    · have hp : ¬cfg.modes = [] ∧ mode ∉ cfg.modes := by simpa using hmode
      simp [render_markdown, renderBody, hth, hcu, hp.1, hp.2]
    · have hm' : (!cfg.modes.isEmpty && !cfg.modes.contains mode) = false := by
        cases hx : (!cfg.modes.isEmpty && !cfg.modes.contains mode)
        · rfl
        · exact absurd hx hmode
      have hnp : ¬(¬cfg.modes = [] ∧ mode ∉ cfg.modes) := by
        simpa using hm'
      simp [render_markdown, renderBody, hth, hcu, hnp]
  · intro hthemes
    subst hthemes
    simp [render_markdown, renderBody, hcu]

/-- C7 (witness): the amended statement evaluated with one theme, a
missing requested theme and a mode the fallback theme supports. -/
theorem render_fallback_amended_witness :
    render_markdown cexThemes [] cexRender cexRenderCustom cexModeMsg
        cexExcToStr [] "nope".data "light-mode".data "wechat".data
      = .success (cexRender [] "d".data "light-mode".data "wechat".data)
          "d".data "wechat".data := by
  have h := (render_fallback_amended cexThemes [] cexRender cexRenderCustom
    cexModeMsg cexExcToStr [] "nope".data "light-mode".data "wechat".data
    (by decide) (by decide)).1 "d".data ⟨[], ["light-mode".data]⟩ [] rfl
  rw [h]
  decide

/-! Image-grid runs (C3). -/

theorem matchRunGo_nil (f : Nat) : matchRunGo f [] = none := by
  cases f <;> rfl

theorem imgTagsGo_nil (f : Nat) : imgTagsGo f [] = [] := by
  cases f <;> rfl

theorem subGo_nil (f : Nat) : subGo f [] = [] := by
  cases f <;> rfl

theorem pfx_append_self (q x : Str) : pfx q (q ++ x) = true := by
  induction q with
  | nil => exact pfx_nil x
  | cons c q' ih => simp [pfx, ih]

theorem pfx_hasSub {q s : Str} (h : pfx q s = true) : hasSub q s = true := by
  cases s with
  | nil =>
    cases q with
    | nil => rfl
    | cons x q' => simp [pfx] at h
  | cons c t => simp [hasSub, h]

theorem pfx_drop_of_append :
    ∀ (t q u : Str), pfx q (t ++ u) = true →
      pfx (q.drop t.length) u = true := by
  intro t
  induction t with
  | nil => intro q u h; simpa using h
  | cons c t' ih =>
    intro q u h
    cases q with
    | nil => exact pfx_nil u
    | cons x q'' =>
      simp only [List.cons_append, pfx, Bool.and_eq_true] at h
      rw [List.length_cons, List.drop_succ_cons]
      exact ih q'' u h.2

theorem hasSub_tail_false {q : Str} {c : Char} {t : Str}
    (h : hasSub q (c :: t) = false) : hasSub q t = false := by
  by_contra hx
  have hx' : hasSub q t = true := by
    revert hx; cases hasSub q t <;> simp
  simp [hasSub, hx'] at h

theorem pfx_imgp_false (t u : Str) (ht : hasSub "<p><img".data t = false)
    (hu : u = [] ∨ ∃ v, u = "<p><img".data ++ v) (hne : t ≠ []) :
    pfx "<p><img".data (t ++ u) = false := by
  by_contra h
  have h' : pfx "<p><img".data (t ++ u) = true := by
    revert h; cases pfx "<p><img".data (t ++ u) <;> simp
  by_cases hlen : ("<p><img".data).length ≤ t.length
  · have := pfx_hasSub (pfx_of_append u h' hlen)
    rw [this] at ht
    exact absurd ht (by simp)
  · have hdrop := pfx_drop_of_append t "<p><img".data u h'
    have htpos : 0 < t.length := List.length_pos.mpr hne
    have hlt : t.length < 7 := by
      have : ("<p><img".data).length = 7 := rfl
      omega
    rcases hu with rfl | ⟨v, rfl⟩
    · have hnn : ("<p><img".data).drop t.length ≠ [] := by
        intro hq
        have := congrArg List.length hq
        rw [List.length_drop] at this
        have h7 : ("<p><img".data).length = 7 := rfl
        rw [h7] at this
        simp at this
        omega
      rcases hq : ("<p><img".data).drop t.length with _ | ⟨x, xs⟩
      · exact hnn hq
      · rw [hq] at hdrop
        simp [pfx] at hdrop
    · have hcase : t.length = 1 ∨ t.length = 2 ∨ t.length = 3 ∨
          t.length = 4 ∨ t.length = 5 ∨ t.length = 6 := by omega
      rcases hcase with h1 | h1 | h1 | h1 | h1 | h1 <;> rw [h1] at hdrop
      · rw [show pfx (("<p><img".data).drop 1) ("<p><img".data ++ v)
            = false from rfl] at hdrop
        exact Bool.noConfusion hdrop
      · rw [show pfx (("<p><img".data).drop 2) ("<p><img".data ++ v)
            = false from rfl] at hdrop
        exact Bool.noConfusion hdrop
      · rw [show pfx (("<p><img".data).drop 3) ("<p><img".data ++ v)
            = false from rfl] at hdrop
        exact Bool.noConfusion hdrop
      · rw [show pfx (("<p><img".data).drop 4) ("<p><img".data ++ v)
            = false from rfl] at hdrop
        exact Bool.noConfusion hdrop
      · rw [show pfx (("<p><img".data).drop 5) ("<p><img".data ++ v)
            = false from rfl] at hdrop
        exact Bool.noConfusion hdrop
      · rw [show pfx (("<p><img".data).drop 6) ("<p><img".data ++ v)
            = false from rfl] at hdrop
        exact Bool.noConfusion hdrop

theorem matchImgP_none_of_pfx {s : Str}
    (h : pfx "<p><img".data s = false) : matchImgP s = none := by
  unfold matchImgP
  rw [if_neg (by simp [h])]

theorem matchRunGo_none {s : Str} (h : matchImgP s = none) :
    ∀ f, matchRunGo f s = none := by
  intro f
  cases f with
  | zero => rfl
  | succ f' => simp [matchRunGo, h]

theorem noSpHead_append {t : Str} (u : Str) (h : noSpHead t = true)
    (hne : t ≠ []) : noSpHead (t ++ u) = true := by
  cases t with
  | nil => exact absurd rfl hne
  | cons c t' => simpa [noSpHead] using h

theorem renderRun_prefix_form (a w : Str) (ps : List (Str × Str)) (x : Str) :
    renderRun ((a, w) :: ps) ++ x
      = "<p><img".data
          ++ (a ++ ("></p>".data ++ (w ++ (renderRun ps ++ x)))) := by
  simp [renderRun, renderPar, List.append_assoc]

theorem takeWhile_gt (a u : Str) (ha : ('>' : Char) ∉ a) :
    (a ++ '>' :: u).takeWhile (fun c => c != '>') = a ∧
    (a ++ '>' :: u).dropWhile (fun c => c != '>') = '>' :: u := by
  induction a with
  | nil => exact ⟨rfl, rfl⟩
  | cons c a' ih =>
    have hc : ¬ c = '>' := fun h => ha (h ▸ List.mem_cons_self c a')
    have hb : (c != '>') = true := by simp [hc]
    obtain ⟨h1, h2⟩ := ih (fun h => ha (List.mem_cons_of_mem c h))
    constructor
    · simp only [List.cons_append, List.takeWhile_cons, hb, if_true, h1]
    · simp only [List.cons_append, List.dropWhile_cons, hb, if_true, h2]

theorem takeWhile_sp (w u : Str) (hw : ∀ c ∈ w, isSp c = true)
    (hu : noSpHead u = true) :
    (w ++ u).takeWhile isSp = w ∧ (w ++ u).dropWhile isSp = u := by
  induction w with
  | nil =>
    cases u with
    | nil => exact ⟨rfl, rfl⟩
    | cons c u' =>
      have hc : isSp c = false := by simpa [noSpHead] using hu
      constructor
      · simp [List.takeWhile_cons, hc]
      · simp [List.dropWhile_cons, hc]
  | cons c w' ih =>
    have hc : isSp c = true := hw c (List.mem_cons_self c w')
    obtain ⟨h1, h2⟩ := ih (fun x hx => hw x (List.mem_cons_of_mem c hx))
    constructor
    · simp only [List.cons_append, List.takeWhile_cons, hc, if_true, h1]
    · simp only [List.cons_append, List.dropWhile_cons, hc, if_true, h2]

theorem matchImgP_par (a y : Str) (ha : ('>' : Char) ∉ a) :
    matchImgP ("<p><img".data ++ (a ++ ("></p>".data ++ y)))
      = some ("<p><img".data ++ a ++ "></p>".data, y) := by
  have hpfx : pfx "<p><img".data
      ("<p><img".data ++ (a ++ ("></p>".data ++ y))) = true :=
    pfx_append_self _ _
  simp only [matchImgP]
  rw [if_pos hpfx]
  rw [show ("<p><img".data ++ (a ++ ("></p>".data ++ y))).drop 7
      = a ++ ('>' :: ("</p>".data ++ y)) from rfl]
  obtain ⟨h1, h2⟩ := takeWhile_gt a ("</p>".data ++ y) ha
  rw [h1, h2]
  rw [if_pos (show pfx "></p>".data ('>' :: ("</p>".data ++ y)) = true
    from pfx_append_self "></p>".data y)]
  rw [show ('>' :: ("</p>".data ++ y)).drop 5 = y from rfl]

theorem matchRunGo_genrun :
    ∀ (r : List (Str × Str)) (f : Nat) (z : Str),
      r ≠ [] → (∀ p ∈ r, GoodPar p) → r.length ≤ f →
      noSpHead z = true → matchImgP z = none →
      matchRunGo f (renderRun r ++ z) = some (renderRun r, z) := by
  intro r
  induction r with
  | nil => intro f z hne _ _ _ _; exact absurd rfl hne
  | cons p ps ih =>
    intro f z _ hpars hf hz hmz
    obtain ⟨a, w⟩ := p
    obtain ⟨ha, hw⟩ := hpars (a, w) (List.mem_cons_self _ _)
    obtain ⟨f', rfl⟩ : ∃ f', f = f' + 1 := ⟨f - 1, by
      simp only [List.length_cons] at hf
      omega⟩
    rw [renderRun_prefix_form a w ps z]
    simp only [matchRunGo, matchImgP_par a (w ++ (renderRun ps ++ z)) ha]
    have hnext : noSpHead (renderRun ps ++ z) = true := by
      cases ps with
      | nil => exact hz
      | cons q qs =>
        obtain ⟨a', w'⟩ := q
        rw [renderRun_prefix_form a' w' qs z]
        rfl
    obtain ⟨h1, h2⟩ := takeWhile_sp w (renderRun ps ++ z) hw hnext
    rw [h1, h2]
    cases ps with
    | nil =>
      rw [show renderRun ([] : List (Str × Str)) ++ z = z from rfl,
        matchRunGo_none hmz f']
      simp [renderRun, renderPar]
    | cons q qs =>
      rw [ih f' z (by simp)
        (fun x hx => hpars x (List.mem_cons_of_mem _ hx))
        (by simp only [List.length_cons] at hf ⊢; omega) hz hmz]
      simp [renderRun, renderPar, List.append_assoc]

theorem imgTagsGo_step_no (f : Nat) (c : Char) (t : Str)
    (h : pfx "<img".data (c :: t) = false) :
    imgTagsGo (f + 1) (c :: t) = imgTagsGo f t := by
  simp [imgTagsGo, h]

theorem imgTags_ws :
    ∀ (w u : Str) (f : Nat), (∀ c ∈ w, isSp c = true) →
      imgTagsGo (w.length + f) (w ++ u) = imgTagsGo f u := by
  intro w
  induction w with
  | nil => intro u f _; simp
  | cons c w' ih =>
    intro u f hw
    have hc : isSp c = true := hw c (List.mem_cons_self c w')
    have hne : ¬ c = '<' := by
      intro h
      rw [h] at hc
      exact absurd hc (by decide)
    have hb : (('<' : Char) == c) = false :=
      beq_eq_false_iff_ne.mpr (fun h => hne h.symm)
    have hpfx : pfx "<img".data (c :: (w' ++ u)) = false := by
      simp [pfx, hb]
    rw [show (c :: w').length + f = (w'.length + f) + 1 from by
      simp only [List.length_cons]; omega]
    rw [show (c :: w') ++ u = c :: (w' ++ u) from rfl]
    rw [imgTagsGo_step_no (w'.length + f) c (w' ++ u) hpfx]
    exact ih u f (fun x hx => hw x (List.mem_cons_of_mem c hx))

theorem imgTagsGo_step_yes (F : Nat) (a W : Str) (ha : ('>' : Char) ∉ a) :
    imgTagsGo (F + 1) ('<' :: ("img".data ++ (a ++ ('>' :: W))))
      = ("<img".data ++ a ++ ['>']) :: imgTagsGo F W := by
  have hpfx : pfx "<img".data
      ('<' :: ("img".data ++ (a ++ ('>' :: W)))) = true :=
    pfx_append_self "<img".data (a ++ ('>' :: W))
  simp only [imgTagsGo]
  rw [if_pos hpfx]
  rw [show ('<' :: ("img".data ++ (a ++ ('>' :: W)))).drop 4
      = a ++ ('>' :: W) from rfl]
  obtain ⟨h1, h2⟩ := takeWhile_gt a W ha
  rw [h1, h2]
  rfl

theorem imgTags_par_fuel (a w z : Str) (f : Nat) (ha : ('>' : Char) ∉ a)
    (hw : ∀ c ∈ w, isSp c = true) :
    imgTagsGo ((w.length + f) + 8) (renderPar (a, w) ++ z)
      = ("<img".data ++ a ++ ['>']) :: imgTagsGo f z := by
  have hshape : renderPar (a, w) ++ z
      = '<' :: 'p' :: '>' ::
          ('<' :: ("img".data ++ (a ++ ('>' :: ("</p>".data ++ (w ++ z)))))) := by
    simp [renderPar, List.append_assoc]
  rw [hshape]
  rw [show (w.length + f) + 8 = ((w.length + f) + 7) + 1 from rfl,
    imgTagsGo_step_no ((w.length + f) + 7) '<'
      ('p' :: '>' :: ('<' :: ("img".data ++ (a ++ ('>' ::
        ("</p>".data ++ (w ++ z))))))) rfl]
  rw [show (w.length + f) + 7 = ((w.length + f) + 6) + 1 from rfl,
    imgTagsGo_step_no ((w.length + f) + 6) 'p'
      ('>' :: ('<' :: ("img".data ++ (a ++ ('>' ::
        ("</p>".data ++ (w ++ z))))))) rfl]
  rw [show (w.length + f) + 6 = ((w.length + f) + 5) + 1 from rfl,
    imgTagsGo_step_no ((w.length + f) + 5) '>'
      ('<' :: ("img".data ++ (a ++ ('>' ::
        ("</p>".data ++ (w ++ z)))))) rfl]
  rw [show (w.length + f) + 5 = ((w.length + f) + 4) + 1 from rfl,
    imgTagsGo_step_yes ((w.length + f) + 4) a ("</p>".data ++ (w ++ z)) ha]
  rw [show ("</p>".data ++ (w ++ z)) = '<' :: '/' :: 'p' :: '>' :: (w ++ z)
    from rfl]
  rw [show (w.length + f) + 4 = ((w.length + f) + 3) + 1 from rfl,
    imgTagsGo_step_no ((w.length + f) + 3) '<'
      ('/' :: 'p' :: '>' :: (w ++ z)) rfl]
  rw [show (w.length + f) + 3 = ((w.length + f) + 2) + 1 from rfl,
    imgTagsGo_step_no ((w.length + f) + 2) '/' ('p' :: '>' :: (w ++ z)) rfl]
  rw [show (w.length + f) + 2 = ((w.length + f) + 1) + 1 from rfl,
    imgTagsGo_step_no ((w.length + f) + 1) 'p' ('>' :: (w ++ z)) rfl]
  rw [show (w.length + f) + 1 = (w.length + f) + 1 from rfl,
    imgTagsGo_step_no (w.length + f) '>' (w ++ z) rfl]
  rw [imgTags_ws w z f hw]

theorem imgTags_genrun :
    ∀ (r : List (Str × Str)) (f : Nat), (∀ p ∈ r, GoodPar p) →
      imgTagsGo ((r.map (fun p => p.2.length + 8)).sum + f) (renderRun r)
        = r.map (fun p => "<img".data ++ p.1 ++ ['>']) := by
  intro r
  induction r with
  | nil => intro f _; simp [renderRun, imgTagsGo_nil]
  | cons p ps ih =>
    intro f hpars
    obtain ⟨a, w⟩ := p
    obtain ⟨ha, hw⟩ := hpars (a, w) (List.mem_cons_self _ _)
    have hr : renderRun ((a, w) :: ps) = renderPar (a, w) ++ renderRun ps :=
      rfl
    have hfuel : (((a, w) :: ps).map (fun p => p.2.length + 8)).sum + f
        = (w.length + ((ps.map (fun p => p.2.length + 8)).sum + f)) + 8 := by
      simp only [List.map_cons, List.sum_cons]
      omega
    rw [hr, hfuel,
      imgTags_par_fuel a w (renderRun ps)
        ((ps.map (fun p => p.2.length + 8)).sum + f) ha hw,
      ih f (fun x hx => hpars x (List.mem_cons_of_mem _ hx))]
    rfl

theorem len_renderPar (a w : Str) :
    (renderPar (a, w)).length = 12 + a.length + w.length := by
  simp only [renderPar, List.length_append]
  rw [show ("<p><img".data).length = 7 from rfl,
    show ("></p>".data).length = 5 from rfl]
  omega

theorem len_renderRun_split :
    ∀ r : List (Str × Str), (renderRun r).length
      = (r.map (fun p => p.2.length + 8)).sum
        + (r.map (fun p => p.1.length + 4)).sum := by
  intro r
  induction r with
  | nil => rfl
  | cons p ps ih =>
    obtain ⟨a, w⟩ := p
    have hr : renderRun ((a, w) :: ps) = renderPar (a, w) ++ renderRun ps :=
      rfl
    rw [hr, List.length_append, len_renderPar, ih]
    simp only [List.map_cons, List.sum_cons]
    omega

theorem count_genrun (r : List (Str × Str)) (hpars : ∀ p ∈ r, GoodPar p) :
    (imgTagsGo (renderRun r).length (renderRun r)).length = r.length := by
  rw [len_renderRun_split r,
    imgTags_genrun r ((r.map (fun p => p.1.length + 4)).sum) hpars]
  simp

theorem len_run_ge : ∀ r : List (Str × Str), r.length ≤ (renderRun r).length := by
  intro r
  induction r with
  | nil => simp [renderRun]
  | cons p ps ih =>
    obtain ⟨a, w⟩ := p
    have hr : renderRun ((a, w) :: ps) = renderPar (a, w) ++ renderRun ps :=
      rfl
    rw [hr, List.length_append, len_renderPar]
    simp only [List.length_cons]
    omega

theorem replaceImgGroup_run (r : List (Str × Str))
    (hp : ∀ p ∈ r, GoodPar p) :
    replaceImgGroup (renderRun r) = expectedWrap r := by
  simp only [replaceImgGroup]
  rw [count_genrun r hp]
  rfl

theorem subGo_step_match (f : Nat) (s m rest : Str) (hs : s ≠ [])
    (h : matchRunGo (s.length + 1) s = some (m, rest)) :
    subGo (f + 1) s = replaceImgGroup m ++ subGo f rest := by
  cases s with
  | nil => exact absurd rfl hs
  | cons c t =>
    simp only [subGo]
    rw [h]

theorem subGo_step_copy (f : Nat) (c : Char) (t : Str)
    (h : matchRunGo ((c :: t).length + 1) (c :: t) = none) :
    subGo (f + 1) (c :: t) = c :: subGo f t := by
  simp only [subGo]
  rw [h]

theorem subGo_text :
    ∀ (t u : Str) (f : Nat),
      hasSub "<p><img".data t = false →
      (u = [] ∨ ∃ v, u = "<p><img".data ++ v) →
      subGo (t.length + f) (t ++ u) = t ++ subGo f u := by
  intro t
  induction t with
  | nil => intro u f _ _; simp
  | cons c t' ih =>
    intro u f ht hu
    have hpfx : pfx "<p><img".data ((c :: t') ++ u) = false :=
      pfx_imgp_false (c :: t') u ht hu (by simp)
    have hnone : matchRunGo ((c :: (t' ++ u)).length + 1) (c :: (t' ++ u))
        = none :=
      matchRunGo_none (matchImgP_none_of_pfx hpfx) _
    rw [show (c :: t') ++ u = c :: (t' ++ u) from rfl]
    rw [show (c :: t').length + f = (t'.length + f) + 1 from by
      simp only [List.length_cons]; omega]
    rw [subGo_step_copy (t'.length + f) c (t' ++ u) hnone]
    rw [ih u f (hasSub_tail_false ht) hu]
    rfl

theorem renderParts_form (parts : List (List (Str × Str) × Str))
    (hwf : WFParts parts) :
    renderParts parts = [] ∨ ∃ v, renderParts parts = "<p><img".data ++ v := by
  cases parts with
  | nil => exact Or.inl rfl
  | cons pt rest =>
    obtain ⟨r, t⟩ := pt
    obtain ⟨hr, -, -, -, -, -⟩ := hwf
    obtain ⟨q, qs, rfl⟩ := List.exists_cons_of_ne_nil hr
    obtain ⟨a, w⟩ := q
    refine Or.inr
      ⟨a ++ ("></p>".data ++ (w ++ (renderRun qs ++ (t ++ renderParts rest)))),
        ?_⟩
    rw [show renderParts (((a, w) :: qs, t) :: rest)
        = renderRun ((a, w) :: qs) ++ (t ++ renderParts rest) from by
      simp [renderParts, List.append_assoc]]
    rw [renderRun_prefix_form a w qs (t ++ renderParts rest)]

theorem partsFuel_le :
    ∀ parts : List (List (Str × Str) × Str), WFParts parts →
      partsFuel parts ≤ (renderParts parts).length := by
  intro parts
  induction parts with
  | nil => intro _; simp [partsFuel, renderParts]
  | cons pt rest ih =>
    intro hwf
    obtain ⟨r, t⟩ := pt
    obtain ⟨hr, -, -, -, -, hwfr⟩ := hwf
    have h2 := ih hwfr
    have hrlen : 1 ≤ (renderRun r).length := by
      cases r with
      | nil => exact absurd rfl hr
      | cons q qs =>
        have h3 := len_run_ge (q :: qs)
        simp only [List.length_cons] at h3
        omega
    rw [show renderParts ((r, t) :: rest)
        = (renderRun r ++ t) ++ renderParts rest from rfl]
    simp only [partsFuel, List.length_append]
    omega

theorem subGo_parts :
    ∀ (parts : List (List (Str × Str) × Str)) (f : Nat),
      WFParts parts →
      subGo (partsFuel parts + f) (renderParts parts)
        = (parts.map
            (fun pt => replaceImgGroup (renderRun pt.1) ++ pt.2)).flatten := by
  intro parts
  induction parts with
  | nil => intro f _; simp [partsFuel, renderParts, subGo_nil]
  | cons pt rest ih =>
    intro f hwf
    obtain ⟨r, t⟩ := pt
    obtain ⟨hr, hgp, ht, hnh, hor, hwfr⟩ := hwf
    obtain ⟨q, qs, rfl⟩ := List.exists_cons_of_ne_nil hr
    obtain ⟨a, w⟩ := q
    have hnz : noSpHead (t ++ renderParts rest) = true := by
      cases t with
      | nil =>
        have hrest : rest = [] := by
          rcases hor with h | h
          · exact h
          · exact absurd rfl h
        rw [hrest]
        rfl
      | cons c t2 => exact noSpHead_append _ hnh (by simp)
    have hmz : matchImgP (t ++ renderParts rest) = none := by
      cases t with
      | nil =>
        have hrest : rest = [] := by
          rcases hor with h | h
          · exact h
          · exact absurd rfl h
        rw [hrest]
        rfl
      | cons c t2 =>
        exact matchImgP_none_of_pfx
          (pfx_imgp_false (c :: t2) (renderParts rest) ht
            (renderParts_form rest hwfr) (by simp))
    have hmatch : matchRunGo
        ((renderRun ((a, w) :: qs) ++ (t ++ renderParts rest)).length + 1)
        (renderRun ((a, w) :: qs) ++ (t ++ renderParts rest))
        = some (renderRun ((a, w) :: qs), t ++ renderParts rest) :=
      matchRunGo_genrun ((a, w) :: qs) _ (t ++ renderParts rest)
        (by simp) hgp
        (by
          have h1 := len_run_ge ((a, w) :: qs)
          simp only [List.length_append]
          omega)
        hnz hmz
    have hsne : renderRun ((a, w) :: qs) ++ (t ++ renderParts rest) ≠ [] := by
      rw [renderRun_prefix_form]
      simp
    rw [show renderParts (((a, w) :: qs, t) :: rest)
        = renderRun ((a, w) :: qs) ++ (t ++ renderParts rest) from by
      simp [renderParts, List.append_assoc]]
    rw [show partsFuel (((a, w) :: qs, t) :: rest) + f
        = (t.length + (partsFuel rest + f)) + 1 from by
      simp only [partsFuel]; omega]
    rw [subGo_step_match (t.length + (partsFuel rest + f))
      (renderRun ((a, w) :: qs) ++ (t ++ renderParts rest))
      (renderRun ((a, w) :: qs)) (t ++ renderParts rest) hsne hmatch]
    rw [subGo_text t (renderParts rest) (partsFuel rest + f) ht
      (renderParts_form rest hwfr)]
    rw [ih f hwfr]
    simp [List.append_assoc]

theorem map_replace_eq_expected :
    ∀ parts : List (List (Str × Str) × Str), WFParts parts →
      parts.map (fun pt => replaceImgGroup (renderRun pt.1) ++ pt.2)
        = parts.map (fun pt => expectedWrap pt.1 ++ pt.2) := by
  intro parts
  induction parts with
  | nil => intro _; rfl
  | cons pt rest ih =>
    intro hwf
    obtain ⟨r, t⟩ := pt
    obtain ⟨-, hgp, -, -, -, hwfr⟩ := hwf
    simp only [List.map_cons]
    rw [replaceImgGroup_run r hgp, ih hwfr]

/-- C3: in `_process_image_grids`, every maximal run of consecutive
image-only paragraphs (`<p><img...></p>` blocks with arbitrary
attribute text and arbitrary inter-block whitespace, embedded in an
arbitrary surrounding document) is rewritten according to its length
`k`: a run of one image is left unwrapped, a run of two is wrapped in
`<section class="img-grid img-grid-2">`, a run of three in
`img-grid-3`, and a run of four or more in `img-grid-multi`; text
outside the runs passes through unchanged.  The document is presented
as a leading text segment `t0` followed by an alternation of runs and
text segments; `WFParts` states exactly the conditions making each run
maximal (text segments contain no `<p><img` opener, do not begin with
whitespace the preceding run's trailing `\s*` would have swallowed, and
separate adjacent runs by nonempty text). -/
theorem image_grid_runs (t0 : Str) (parts : List (List (Str × Str) × Str))
    (h0 : hasSub "<p><img".data t0 = false) (hwf : WFParts parts) :
    process_image_grids (t0 ++ renderParts parts)
      = t0 ++ (parts.map (fun pt => expectedWrap pt.1 ++ pt.2)).flatten := by
  unfold process_image_grids
  have hR := partsFuel_le parts hwf
  rw [show (t0 ++ renderParts parts).length
      = t0.length + (renderParts parts).length from by simp]
  rw [subGo_text t0 (renderParts parts) ((renderParts parts).length) h0
    (renderParts_form parts hwf)]
  rw [show (renderParts parts).length
      = partsFuel parts + ((renderParts parts).length - partsFuel parts) from by
    omega]
  rw [subGo_parts parts ((renderParts parts).length - partsFuel parts) hwf]
  rw [map_replace_eq_expected parts hwf]

theorem image_grid_runs_witness :
    hasSub "<p><img".data "<h1>Title</h1>\n".data = false ∧
    WFParts
      [([(" src=\"a.png\"".data, "\n".data),
         (" src=\"b.png\" alt=\"two\"".data, "\n \n".data)],
        "<p>middle text</p>\n".data),
       ([(" class=\"hero\" src=\"c.png\"".data, [])],
        "<p>the end</p>".data)] ∧
    process_image_grids
      ("<h1>Title</h1>\n".data
        ++ renderParts
          [([(" src=\"a.png\"".data, "\n".data),
             (" src=\"b.png\" alt=\"two\"".data, "\n \n".data)],
            "<p>middle text</p>\n".data),
           ([(" class=\"hero\" src=\"c.png\"".data, [])],
            "<p>the end</p>".data)])
      = "<h1>Title</h1>\n".data
        ++ ([([(" src=\"a.png\"".data, "\n".data),
               (" src=\"b.png\" alt=\"two\"".data, "\n \n".data)],
              "<p>middle text</p>\n".data),
             ([(" class=\"hero\" src=\"c.png\"".data, [])],
              "<p>the end</p>".data)].map
            (fun pt => expectedWrap pt.1 ++ pt.2)).flatten :=
  ⟨by decide, by decide, image_grid_runs _ _ (by decide) (by decide)⟩

end Md2any
